import Mathlib

/-!
# Triangle-triangle adjacency of libigl

A shallow embedding of `include/igl/triangle_triangle_adjacency.cpp` and the
properties of its two families of entry points:

* the dense path (`triangle_triangle_adjacency_preprocess`,
  `triangle_triangle_adjacency_extractTT`, `triangle_triangle_adjacency_extractTTi`
  and the two callers that fill the matrices `TT` and `TTi`);
* the list-valued path that reads a unique-edge index `(E, EMAP, uE2E)`.

Conventions of the embedding.

* An Eigen matrix is a `Mat`: its `rows()`, its `cols()` and its coefficient
  accessor.  Matrix entries are unbounded integers; the `int` counters of the
  source are natural numbers (meshes whose sizes or indices leave the range of
  `int` are outside the model).
* The C++ overloads of `triangle_triangle_adjacency` get a suffix naming their
  arguments: `_TT`, `_TT_TTi` (dense), `_F` (lists, from a face matrix) and `_E`
  (lists, from a unique-edge index).
* `assert` is taken as enabled: a failing assertion ends the call in
  `Outcome.aborted`, which records the output containers as they are then.
-/

namespace igl

/-! ## Dense integer matrices -/

/-- Integer matrix as the source uses an Eigen matrix: `rows()`, `cols()` and `M(r,c)`. -/
structure Mat where
  /-- Number of rows, `rows()`. -/
  rows : Nat
  /-- Number of columns, `cols()`. -/
  cols : Nat
  /-- Coefficient `M(r,c)`; only `r < rows`, `c < cols` are entries of the matrix. -/
  coeff : Nat → Nat → Int

/-- The matrix `Constant(rows, cols, v)`. -/
def Mat.Constant (rows cols : Nat) (v : Int) : Mat :=
  ⟨rows, cols, fun _ _ => v⟩

/-- The assignment `M(r,c) = v`. -/
def Mat.set (M : Mat) (r c : Nat) (v : Int) : Mat :=
  ⟨M.rows, M.cols, fun r' c' => if r' = r ∧ c' = c then v else M.coeff r' c'⟩

/-- The matrix with the given rows, each read up to `cols` entries. -/
def Mat.ofRows (cols : Nat) (rs : List (List Int)) : Mat :=
  ⟨rs.length, cols, fun r c => (rs.getD r []).getD c 0⟩

/-- The entries of a matrix, row by row. -/
def Mat.toRows (M : Mat) : List (List Int) :=
  (List.range M.rows).map fun r => (List.range M.cols).map fun c => M.coeff r c

/-! ## Half-edge rows and their order -/

/-- One element `r` of `TTT`: the four integers `v1 v2 f ei` of the source, where
`r[2]` and `r[3]` are a face and a corner counter. -/
structure Row where
  /-- Entry `r[0]`, the smaller endpoint. -/
  v1 : Int
  /-- Entry `r[1]`, the larger endpoint. -/
  v2 : Int
  /-- Entry `r[2]`, the face. -/
  f : Nat
  /-- Entry `r[3]`, the corner. -/
  ei : Nat
deriving DecidableEq, Inhabited

/-- The order `operator<` of `std::vector<int>` on rows of length four: lexicographic. -/
def Row.lt (a b : Row) : Prop :=
  a.v1 < b.v1 ∨ (a.v1 = b.v1 ∧ (a.v2 < b.v2 ∨ (a.v2 = b.v2 ∧
    (a.f < b.f ∨ (a.f = b.f ∧ a.ei < b.ei)))))

instance Row.decLt : DecidableRel Row.lt := fun a b => by
  unfold Row.lt; infer_instance

/-- The relation `!(b < a)`, the order in which `std::sort` leaves two neighbours. -/
def Row.le (a b : Row) : Prop := ¬ Row.lt b a

instance Row.decLe : DecidableRel Row.le := fun a b => by
  unfold Row.le; infer_instance

instance Row.le_isTotal : IsTotal Row Row.le :=
  ⟨fun a b => by unfold Row.le Row.lt; omega⟩

instance Row.le_isTrans : IsTrans Row Row.le :=
  ⟨fun a b c hab hbc => by unfold Row.le Row.lt at *; omega⟩

instance Row.le_isAntisymm : IsAntisymm Row Row.le :=
  ⟨fun a b hab hba => by
    cases a; cases b
    unfold Row.le Row.lt at *
    simp only [Row.mk.injEq] at *
    omega⟩

/-- The call `std::sort(TTT.begin(),TTT.end())`: the rows in non-decreasing order.
The order is total and antisymmetric, so the sorted sequence is unique and any
sorting algorithm returns it (`sort_unique` below); insertion sort computes it. -/
def sort (TTT : List Row) : List Row :=
  List.insertionSort Row.le TTT

/-! ## The dense path -/

/-- The function `triangle_triangle_adjacency_preprocess`: push one row per face and
corner onto `TTT`, then sort. The vertex matrix `V` is not read and is left out. -/
def triangle_triangle_adjacency_preprocess (F : Mat) (TTT : List Row) : List Row :=
  sort <|
    (List.range F.rows).foldl (fun TTT f =>
      (List.range F.cols).foldl (fun TTT i =>
        let v1 := F.coeff f i
        let v2 := F.coeff f ((i + 1) % F.cols)
        let r : Row := if v1 > v2 then ⟨v2, v1, f, i⟩ else ⟨v1, v2, f, i⟩
        TTT ++ [r]) TTT) TTT

/-- The function `triangle_triangle_adjacency_extractTT`. -/
def triangle_triangle_adjacency_extractTT (F : Mat) (TTT : List Row) : Mat :=
  (List.range' 1 (TTT.length - 1)).foldl (fun TT i =>
    let r1 := TTT.getD (i - 1) default
    let r2 := TTT.getD i default
    if r1.v1 = r2.v1 ∧ r1.v2 = r2.v2 then
      (TT.set r1.f r1.ei r2.f).set r2.f r2.ei r1.f
    else TT) (Mat.Constant F.rows F.cols (-1))

/-- The function `triangle_triangle_adjacency_extractTTi`. -/
def triangle_triangle_adjacency_extractTTi (F : Mat) (TTT : List Row) : Mat :=
  (List.range' 1 (TTT.length - 1)).foldl (fun TTi i =>
    let r1 := TTT.getD (i - 1) default
    let r2 := TTT.getD i default
    if r1.v1 = r2.v1 ∧ r1.v2 = r2.v2 then
      (TTi.set r1.f r1.ei r2.ei).set r2.f r2.ei r1.ei
    else TTi) (Mat.Constant F.rows F.cols (-1))

/-- The overload `triangle_triangle_adjacency(V,F,TT)`: the new value of `TT`. -/
def triangle_triangle_adjacency_TT (F : Mat) : Mat :=
  let TTT := triangle_triangle_adjacency_preprocess F []
  triangle_triangle_adjacency_extractTT F TTT

/-- The overload `triangle_triangle_adjacency(V,F,TT,TTi)`: the new values of `TT` and `TTi`. -/
def triangle_triangle_adjacency_TT_TTi (F : Mat) : Mat × Mat :=
  let TTT := triangle_triangle_adjacency_preprocess F []
  (triangle_triangle_adjacency_extractTT F TTT, triangle_triangle_adjacency_extractTTi F TTT)

/-! ## Notions used to state the properties of the dense path -/

/-- The row that `triangle_triangle_adjacency_preprocess` pushes for face `f` and corner `i`. -/
def halfEdge (F : Mat) (f i : Nat) : Row :=
  if F.coeff f i > F.coeff f ((i + 1) % F.cols) then
    ⟨F.coeff f ((i + 1) % F.cols), F.coeff f i, f, i⟩
  else ⟨F.coeff f i, F.coeff f ((i + 1) % F.cols), f, i⟩

/-- All rows pushed for `F`, in the order of the two loops. -/
def halfEdges (F : Mat) : List Row :=
  (List.range F.rows).flatMap fun f => (List.range F.cols).map fun i => halfEdge F f i

/-- The edge of face `f` at corner `c` and the edge of face `g` at corner `d` have the same
unordered pair of endpoints: `{F(f,c), F(f,(c+1)%w)} = {F(g,d), F(g,(d+1)%w)}`. -/
def sameEdge (F : Mat) (f c g d : Nat) : Prop :=
  (F.coeff f c = F.coeff g d ∧
      F.coeff f ((c + 1) % F.cols) = F.coeff g ((d + 1) % F.cols)) ∨
    (F.coeff f c = F.coeff g ((d + 1) % F.cols) ∧
      F.coeff f ((c + 1) % F.cols) = F.coeff g d)

instance sameEdge.dec (F : Mat) (f c g d : Nat) : Decidable (sameEdge F f c g d) := by
  unfold sameEdge; infer_instance

/-- The pairs (face, corner) of an `m` by `w` face matrix. -/
def corners (F : Mat) : List (Nat × Nat) :=
  List.product (List.range F.rows) (List.range F.cols)

/-- Multiplicity of the unique edge of face `f` at corner `c`: the number of pairs
(face, corner) of `F` whose edge has the same unordered pair of endpoints. -/
def multiplicity (F : Mat) (f c : Nat) : Nat :=
  ((corners F).filter fun s => decide (sameEdge F f c s.1 s.2)).length

/-- Two rows carry the same edge key: the test `(r1[0] == r2[0]) && (r1[1] == r2[1])`. -/
def sameKey (a b : Row) : Prop := a.v1 = b.v1 ∧ a.v2 = b.v2

instance sameKey.dec (a b : Row) : Decidable (sameKey a b) := by
  unfold sameKey; infer_instance

/-- The slot of the output matrices a row stands for: its face and its corner. -/
def Row.pos (r : Row) : Nat × Nat := (r.f, r.ei)

/-- One iteration of the scan of `extractTT` (`val = Row.f`) or `extractTTi` (`val = Row.ei`)
on the neighbours `r1`, `r2`. -/
def scanStep (val : Row → Int) (r1 r2 : Row) (M : Mat) : Mat :=
  if r1.v1 = r2.v1 ∧ r1.v2 = r2.v2 then
    (M.set r1.f r1.ei (val r2)).set r2.f r2.ei (val r1)
  else M

/-- The scan over all pairs of neighbours of a row list, front to back. -/
def scan (val : Row → Int) : List Row → Mat → Mat
  | r1 :: r2 :: rest, M => scan val (r2 :: rest) (scanStep val r1 r2 M)
  | _, M => M

/-- The entry a row's slot holds after the scan, from the row before it (`prev`), the row
after it (`next`) and the entry `old` the slot held before. -/
def linkOf (val : Row → Int) (prev : Option Row) (r : Row) (next : Option Row) (old : Int) : Int :=
  match next with
  | some q =>
    if sameKey r q then val q else
      match prev with
      | some p => if sameKey p r then val p else old
      | none => old
  | none =>
    match prev with
    | some p => if sameKey p r then val p else old
    | none => old

/-! ## The list-valued path -/

/-- The containers `std::vector<std::vector<std::vector<Index> > >` of the list-valued path. -/
abbrev Lists := List (List (List Int))

/-- The call `v.resize(n, x)`: keep the first `n` elements, pad with copies of `x`. -/
def resize {α : Type} (v : List α) (n : Nat) (x : α) : List α :=
  v.take n ++ List.replicate (n - v.length) x

/-- Apply `g` to the element at position `n`, when there is one. -/
def modifyAt {α : Type} (g : α → α) : Nat → List α → List α
  | _, [] => []
  | 0, x :: xs => g x :: xs
  | n + 1, x :: xs => x :: modifyAt g n xs

/-- The call `TT[f][c].push_back(x)`. A slot outside the container (undefined in the
source) is not written. -/
def push_back_at (TT : Lists) (f c : Nat) (x : Int) : Lists :=
  modifyAt (modifyAt (fun l => l ++ [x]) c) f TT

/-- The list `TT[f][c]`, empty when the container holds no such slot. -/
def slot (TT : Lists) (f c : Nat) : List Int :=
  (TT.getD f []).getD c []

/-- How a call of the list-valued path ends, with the output containers at that moment:
it returns, or a failing `assert` aborts it. -/
inductive Outcome where
  /-- The call returned. -/
  | returned (TT TTi : Lists)
  /-- An assertion failed. -/
  | aborted (TT TTi : Lists)
deriving DecidableEq

/-- The overload `triangle_triangle_adjacency(E,EMAP,uE2E,construct_TTi,TT,TTi)`.
`EMAP` and the rows of `uE2E` hold indices, so they are natural numbers; the reads
`EMAP(e)` and `uE2E[...]` outside their containers (undefined in the source) read `0`
and the empty list. The entries `E(e,0)`, `E(e,1)` are read but not used. -/
def triangle_triangle_adjacency_E (E : Mat) (EMAP : List Nat) (uE2E : List (List Nat))
    (construct_TTi : Bool) (TT TTi : Lists) : Outcome :=
  let m := E.rows / 3
  if E.rows ≠ m * 3 then Outcome.aborted TT TTi else
  let TT := resize TT m (List.replicate 3 [])
  let TTi := if construct_TTi then resize TTi m (List.replicate 3 []) else TTi
  let out := (List.range m).foldl (fun acc f =>
    (List.range 3).foldl (fun acc c =>
      let e := f + m * c
      let N := uE2E.getD (EMAP.getD e 0) []
      N.foldl (fun (acc : Lists × Lists) ne =>
        let nf := ne % m
        let TT := push_back_at acc.1 f c nf
        if construct_TTi then
          let nc := ne / m
          (TT, push_back_at acc.2 f c nc)
        else (TT, acc.2)) acc) acc) (TT, TTi)
  Outcome.returned out.1 out.2

/-- The outputs `E`, `uE`, `EMAP`, `uE2E` of `unique_edge_map`. -/
structure UniqueEdgeMap where
  /-- Directed edges, one row per face and corner. -/
  E : Mat
  /-- Unique undirected edges, as (smaller endpoint, larger endpoint). -/
  uE : List (Int × Int)
  /-- For each row of `E`, the index of its unique edge. -/
  EMAP : List Nat
  /-- For each unique edge, the rows of `E` it comes from. -/
  uE2E : List (List Nat)

/-- The undirected edge of row `e` of the directed-edge table of `F`: row `f + m*c` is
the edge of face `f` that starts at local vertex `c`. -/
def edgeOfRow (F : Mat) (e : Nat) : Int × Int :=
  let a := F.coeff (e % F.rows) (e / F.rows)
  let b := F.coeff (e % F.rows) ((e / F.rows + 1) % 3)
  (min a b, max a b)

/-- Modelled from the spec: `unique_edge_map` (declared in `unique_edge_map.h`, which is
not among the sources). Following section 4.4 of the specification, `E` has `3m` rows
grouped by corner (row `f + m*c` is the edge of face `f` starting at local vertex `c`),
`EMAP` gives each row the identity of its undirected edge, and `uE2E` lists for each
identity the rows that carry it, each once, in increasing order. Identities are numbered
by first occurrence. -/
def unique_edge_map (F : Mat) : UniqueEdgeMap :=
  let m := F.rows
  let keys := (List.range (3 * m)).map (edgeOfRow F)
  let uE := keys.foldl (fun acc k => if k ∈ acc then acc else acc ++ [k]) []
  let EMAP := keys.map fun k => uE.indexOf k
  { E := ⟨3 * m, 2, fun e j => F.coeff (e % m) ((e / m + j) % 3)⟩
    uE := uE
    EMAP := EMAP
    uE2E := (List.range uE.length).map fun u =>
      (List.range (3 * m)).filter fun e => decide (EMAP.getD e 0 = u) }

/-- The overload `triangle_triangle_adjacency(F,construct_TTi,TT,TTi)`. -/
def triangle_triangle_adjacency_F (F : Mat) (construct_TTi : Bool) (TT TTi : Lists) : Outcome :=
  if F.cols ≠ 3 then Outcome.aborted TT TTi else
  let U := unique_edge_map F
  triangle_triangle_adjacency_E U.E U.EMAP U.uE2E construct_TTi TT TTi

/-! ## Notions used to state the properties of the list-valued path -/

/-- The container holds a list at `[f][c]`. -/
def hasSlot (TT : Lists) (f c : Nat) : Prop :=
  f < TT.length ∧ c < (TT.getD f []).length

instance hasSlot.dec (TT : Lists) (f c : Nat) : Decidable (hasSlot TT f c) := by
  unfold hasSlot; infer_instance

/-- The bucket read for face `f` and corner `c`: `uE2E[EMAP(f + m*c)]`. -/
def bucket (m : Nat) (EMAP : List Nat) (uE2E : List (List Nat)) (f c : Nat) : List Nat :=
  uE2E.getD (EMAP.getD (f + m * c) 0) []

/-- The three loops of `triangle_triangle_adjacency_E` on one container: for every face
and corner, the entries of the bucket, converted by `conv`, are pushed onto `T[f][c]`. -/
def pushBuckets (m : Nat) (EMAP : List Nat) (uE2E : List (List Nat)) (conv : Nat → Int)
    (T : Lists) : Lists :=
  (List.range m ×ˢ List.range 3).foldl (fun T p =>
    (bucket m EMAP uE2E p.1 p.2).foldl (fun T ne => push_back_at T p.1 p.2 (conv ne)) T) T

/-- The contract of the unique-edge index of a mesh of `m` triangles (section 4.4 of the
specification): `E` has `3m` rows, `EMAP` gives each row a unique-edge identity, and
`uE2E[u]` lists exactly the rows `e` with `EMAP(e) = u`, each once. -/
def Honours (m : Nat) (E : Mat) (EMAP : List Nat) (uE2E : List (List Nat)) : Prop :=
  E.rows = 3 * m ∧ EMAP.length = 3 * m ∧
    (∀ e, e < 3 * m → EMAP.getD e 0 < uE2E.length ∧ e ∈ uE2E.getD (EMAP.getD e 0) []) ∧
    (∀ u, u < uE2E.length → (uE2E.getD u []).Nodup ∧
      ∀ e ∈ uE2E.getD u [], e < 3 * m ∧ EMAP.getD e 0 = u)

instance Honours.dec (m : Nat) (E : Mat) (EMAP : List Nat) (uE2E : List (List Nat)) :
    Decidable (Honours m E EMAP uE2E) := by
  unfold Honours; infer_instance

/-- The index `(E, EMAP, uE2E)` is a unique-edge index of the triangle matrix `F`: it
honours the contract, row `f + m*c` of `E` is the edge of face `f` from its local vertex
`c` to the next one, and two rows have the same identity exactly when their edges have the
same unordered pair of endpoints. -/
def IndexOf (F : Mat) (E : Mat) (EMAP : List Nat) (uE2E : List (List Nat)) : Prop :=
  Honours F.rows E EMAP uE2E ∧
    (∀ f, f < F.rows → ∀ c, c < 3 →
      E.coeff (f + F.rows * c) 0 = F.coeff f c ∧
        E.coeff (f + F.rows * c) 1 = F.coeff f ((c + 1) % 3)) ∧
    (∀ f, f < F.rows → ∀ c, c < 3 → ∀ g, g < F.rows → ∀ d, d < 3 →
      (EMAP.getD (f + F.rows * c) 0 = EMAP.getD (g + F.rows * d) 0 ↔ sameEdge F f c g d))

instance IndexOf.dec (F : Mat) (E : Mat) (EMAP : List Nat) (uE2E : List (List Nat)) :
    Decidable (IndexOf F E EMAP uE2E) := by
  unfold IndexOf; infer_instance

/-- The containers a call has when it returns; `none` when it aborted. -/
def Outcome.result : Outcome → Option (Lists × Lists)
  | Outcome.returned TT TTi => some (TT, TTi)
  | Outcome.aborted _ _ => none

/-- The container `TT` as the call leaves it, returned or aborted. -/
def Outcome.TT : Outcome → Lists
  | Outcome.returned TT _ => TT
  | Outcome.aborted TT _ => TT

/-- The container `TTi` as the call leaves it, returned or aborted. -/
def Outcome.TTi : Outcome → Lists
  | Outcome.returned _ TTi => TTi
  | Outcome.aborted _ TTi => TTi

/-- The overload `triangle_triangle_adjacency(F,TT,TTi)` of the list-valued path. -/
def triangle_triangle_adjacency_F_TT_TTi (F : Mat) (TT TTi : Lists) : Outcome :=
  triangle_triangle_adjacency_F F true TT TTi

/-- The overload `triangle_triangle_adjacency(F,TT)` of the list-valued path; the second
container of its outcome is the local `not_used`. -/
def triangle_triangle_adjacency_F_TT (F : Mat) (TT : Lists) : Outcome :=
  let not_used : Lists := []
  triangle_triangle_adjacency_F F false TT not_used

/-! ## Example meshes -/

/-- Scenario A: a single triangle. -/
def meshA : Mat := Mat.ofRows 3 [[0, 1, 2]]

/-- Scenario B: two triangles sharing the edge (1,2). -/
def meshB : Mat := Mat.ofRows 3 [[0, 1, 2], [1, 3, 2]]

/-- Scenario C: three triangles sharing the edge (0,1). -/
def meshC : Mat := Mat.ofRows 3 [[0, 1, 2], [0, 1, 3], [0, 1, 4]]

/-- A triangle that repeats a vertex: its corners 0 and 1 carry the same edge. -/
def meshFold : Mat := Mat.ofRows 3 [[0, 1, 0]]

/-- A single quadrilateral, a face matrix with four columns. -/
def meshQuad : Mat := Mat.ofRows 4 [[0, 1, 2, 3]]

/-- The unique-edge index of scenario A: the three edges of the triangle are distinct. -/
def indexA : UniqueEdgeMap where
  E := Mat.ofRows 2 [[0, 1], [1, 2], [2, 0]]
  uE := [(0, 1), (1, 2), (0, 2)]
  EMAP := [0, 1, 2]
  uE2E := [[0], [1], [2]]

/-- The unique-edge index of scenario B: the rows 2 (face 0, corner 1) and 5 (face 1,
corner 2) are the shared edge (1,2). -/
def indexB : UniqueEdgeMap where
  E := Mat.ofRows 2 [[0, 1], [1, 3], [1, 2], [3, 2], [2, 0], [2, 1]]
  uE := [(0, 1), (1, 3), (1, 2), (2, 3), (0, 2)]
  EMAP := [0, 1, 2, 3, 4, 2]
  uE2E := [[0], [1], [2, 5], [3], [4]]

/-- The unique-edge index of scenario C: the rows 0, 1, 2 (corner 0 of the faces 0, 1, 2)
are the shared edge (0,1); the six other rows are edges of their own. -/
def indexC : UniqueEdgeMap where
  E := Mat.ofRows 2 [[0, 1], [0, 1], [0, 1], [1, 2], [1, 3], [1, 4], [2, 0], [3, 0], [4, 0]]
  uE := [(0, 1), (1, 2), (1, 3), (1, 4), (0, 2), (0, 3), (0, 4)]
  EMAP := [0, 0, 0, 1, 2, 3, 4, 5, 6]
  uE2E := [[0, 1, 2], [3], [4], [5], [6], [7], [8]]

/-! ## The order of the rows and the sort -/

theorem Row.le_total (a b : Row) : Row.le a b ∨ Row.le b a :=
  Row.le_isTotal.total a b

theorem Row.le_trans {a b c : Row} (hab : Row.le a b) (hbc : Row.le b c) : Row.le a c :=
  Row.le_isTrans.trans a b c hab hbc

theorem Row.le_antisymm {a b : Row} (hab : Row.le a b) (hba : Row.le b a) : a = b :=
  Row.le_isAntisymm.antisymm a b hab hba

theorem sort_sorted (l : List Row) : (sort l).Sorted Row.le :=
  List.sorted_insertionSort Row.le l

theorem sort_perm (l : List Row) : (sort l).Perm l :=
  List.perm_insertionSort Row.le l

/-- Whatever `std::sort` does inside, its result is `sort l`: a list that holds the rows of
`l` in non-decreasing order is that list. -/
theorem sort_unique {l s : List Row} (hp : s.Perm l) (hs : s.Sorted Row.le) : s = sort l :=
  List.eq_of_perm_of_sorted (hp.trans (sort_perm l).symm) hs (sort_sorted l)

/-- Rows in order have their edge keys in order. -/
theorem Row.le_key {a b : Row} (h : Row.le a b) :
    a.v1 < b.v1 ∨ (a.v1 = b.v1 ∧ a.v2 ≤ b.v2) := by
  unfold Row.le Row.lt at h; omega

/-- A row between two rows of one key has that key. -/
theorem sameKey_of_between {a b c : Row} (hab : Row.le a b) (hbc : Row.le b c)
    (hac : sameKey a c) : sameKey a b ∧ sameKey b c := by
  have h1 := Row.le_key hab
  have h2 := Row.le_key hbc
  unfold sameKey at *
  omega

/-! ## The rows pushed by the two loops -/

theorem foldl_push_eq {α β : Type} (g : β → α) (l : List β) (T : List α) :
    l.foldl (fun T i => T ++ [g i]) T = T ++ l.map g := by
  induction l generalizing T with
  | nil => simp
  | cons x xs ih => simp [ih]

theorem foldl_append_eq {α β : Type} (h : β → List α) (l : List β) (T : List α) :
    l.foldl (fun T f => T ++ h f) T = T ++ l.flatMap h := by
  induction l generalizing T with
  | nil => simp
  | cons x xs ih => simp [ih]

/-- The function `triangle_triangle_adjacency_preprocess` sorts the rows it was given
followed by one row per face and corner. -/
theorem preprocess_eq (F : Mat) (TTT : List Row) :
    triangle_triangle_adjacency_preprocess F TTT = sort (TTT ++ halfEdges F) := by
  unfold triangle_triangle_adjacency_preprocess halfEdges
  congr 1
  have inner : ∀ (f : Nat) (T : List Row),
      (List.range F.cols).foldl (fun TTT i =>
        let v1 := F.coeff f i
        let v2 := F.coeff f ((i + 1) % F.cols)
        let r : Row := if v1 > v2 then ⟨v2, v1, f, i⟩ else ⟨v1, v2, f, i⟩
        TTT ++ [r]) T = T ++ (List.range F.cols).map fun i => halfEdge F f i := by
    intro f T
    exact foldl_push_eq (fun i => halfEdge F f i) (List.range F.cols) T
  simp only [inner]
  exact foldl_append_eq _ _ _

theorem halfEdge_f (F : Mat) (f i : Nat) : (halfEdge F f i).f = f := by
  unfold halfEdge; split <;> rfl

theorem halfEdge_ei (F : Mat) (f i : Nat) : (halfEdge F f i).ei = i := by
  unfold halfEdge; split <;> rfl

theorem mem_halfEdges {F : Mat} {r : Row} :
    r ∈ halfEdges F ↔ ∃ f, f < F.rows ∧ ∃ i, i < F.cols ∧ r = halfEdge F f i := by
  simp only [halfEdges, List.mem_flatMap, List.mem_range, List.mem_map]
  constructor
  · rintro ⟨f, hf, i, hi, rfl⟩; exact ⟨f, hf, i, hi, rfl⟩
  · rintro ⟨f, hf, i, hi, rfl⟩; exact ⟨f, hf, i, hi, rfl⟩

/-- Two pushed rows carry the same key exactly when their edges have the same endpoints. -/
theorem sameKey_halfEdge (F : Mat) (f c g d : Nat) :
    sameKey (halfEdge F f c) (halfEdge F g d) ↔ sameEdge F f c g d := by
  unfold sameKey sameEdge halfEdge
  split <;> split <;> simp only <;> omega

theorem halfEdges_corners (F : Mat) :
    (halfEdges F).map Row.pos = corners F := by
  unfold halfEdges corners List.product
  rw [List.map_flatMap]
  congr 1
  funext f
  rw [List.map_map]
  congr 1
  funext i
  simp [Row.pos, halfEdge_f, halfEdge_ei]

theorem corners_nodup (F : Mat) : (corners F).Nodup :=
  List.Nodup.product (List.nodup_range _) (List.nodup_range _)

theorem mem_corners {F : Mat} {s : Nat × Nat} :
    s ∈ corners F ↔ s.1 < F.rows ∧ s.2 < F.cols := by
  obtain ⟨a, b⟩ := s
  unfold corners
  exact List.mem_product.trans (by rw [List.mem_range, List.mem_range])

/-! ## The scan of neighbouring rows -/

theorem Mat.set_coeff (M : Mat) (r c : Nat) (v : Int) (r' c' : Nat) :
    (M.set r c v).coeff r' c' = if r' = r ∧ c' = c then v else M.coeff r' c' := rfl

theorem scanStep_coeff_other (val : Row → Int) (r1 r2 : Row) (M : Mat) (f c : Nat)
    (h1 : r1.pos ≠ (f, c)) (h2 : r2.pos ≠ (f, c)) :
    (scanStep val r1 r2 M).coeff f c = M.coeff f c := by
  have e1 : ¬ (f = r1.f ∧ c = r1.ei) := by
    rintro ⟨rfl, rfl⟩; exact h1 rfl
  have e2 : ¬ (f = r2.f ∧ c = r2.ei) := by
    rintro ⟨rfl, rfl⟩; exact h2 rfl
  unfold scanStep
  split
  · rw [Mat.set_coeff, if_neg e2, Mat.set_coeff, if_neg e1]
  · rfl

theorem scanStep_coeff_second (val : Row → Int) (r1 r2 : Row) (M : Mat) :
    (scanStep val r1 r2 M).coeff r2.f r2.ei =
      if sameKey r1 r2 then val r1 else M.coeff r2.f r2.ei := by
  unfold scanStep sameKey
  split
  · rw [Mat.set_coeff, if_pos ⟨rfl, rfl⟩]
  · rfl

theorem scanStep_coeff_first (val : Row → Int) (r1 r2 : Row) (M : Mat)
    (h : r2.pos ≠ r1.pos) :
    (scanStep val r1 r2 M).coeff r1.f r1.ei =
      if sameKey r1 r2 then val r2 else M.coeff r1.f r1.ei := by
  have e2 : ¬ (r1.f = r2.f ∧ r1.ei = r2.ei) := by
    rintro ⟨h1, h2⟩; exact h (by simp [Row.pos, h1, h2])
  unfold scanStep sameKey
  split
  · rw [Mat.set_coeff, if_neg e2, Mat.set_coeff, if_pos ⟨rfl, rfl⟩]
  · rfl

theorem scan_nil (val : Row → Int) (M : Mat) : scan val [] M = M := by
  simp [scan]

theorem scan_single (val : Row → Int) (a : Row) (M : Mat) : scan val [a] M = M := by
  simp [scan]

theorem scan_cons_cons (val : Row → Int) (a b : Row) (t : List Row) (M : Mat) :
    scan val (a :: b :: t) M = scan val (b :: t) (scanStep val a b M) := by
  simp [scan]

/-- The scan writes only the slots of the rows it reads. -/
theorem scan_frame (val : Row → Int) (L : List Row) (M : Mat) (f c : Nat)
    (h : ∀ r ∈ L, r.pos ≠ (f, c)) : (scan val L M).coeff f c = M.coeff f c := by
  induction L generalizing M with
  | nil => rw [scan_nil]
  | cons a t ih =>
    cases t with
    | nil => rw [scan_single]
    | cons b t' =>
      rw [scan_cons_cons, ih _ (fun r hr => h r (List.mem_cons_of_mem _ hr))]
      exact scanStep_coeff_other val a b M f c (h a (List.mem_cons_self _ _))
        (h b (List.mem_cons_of_mem _ (List.mem_cons_self _ _)))

theorem scan_head (val : Row → Int) (r : Row) (post : List Row) (M : Mat)
    (nd : ((r :: post).map Row.pos).Nodup) :
    (scan val (r :: post) M).coeff r.f r.ei =
      linkOf val none r post.head? (M.coeff r.f r.ei) := by
  rw [List.map_cons, List.nodup_cons] at nd
  have hne : ∀ q ∈ post, q.pos ≠ (r.f, r.ei) := by
    intro q hq e
    exact nd.1 (List.mem_map.2 ⟨q, hq, e⟩)
  cases post with
  | nil => rw [scan_single]; rfl
  | cons q t =>
    rw [scan_cons_cons, scan_frame val _ _ _ _ hne,
      scanStep_coeff_first val r q M (hne q (List.mem_cons_self _ _))]
    rfl

theorem linkOf_none_prev (val : Row → Int) (p r : Row) (next : Option Row) (old : Int) :
    linkOf val none r next (if sameKey p r then val p else old) =
      linkOf val (some p) r next old := by
  unfold linkOf
  cases next <;> rfl

/-- After the scan of a list of rows with distinct slots, the slot of a row holds the face
(or corner) of the row after it when that one has the same key, else of the row before it
when that one has the same key, else what it held before. -/
theorem scan_at (val : Row → Int) (pre : List Row) (r : Row) (post : List Row) (M : Mat)
    (nd : ((pre ++ r :: post).map Row.pos).Nodup) :
    (scan val (pre ++ r :: post) M).coeff r.f r.ei =
      linkOf val pre.getLast? r post.head? (M.coeff r.f r.ei) := by
  induction pre generalizing M with
  | nil => exact scan_head val r post M nd
  | cons p pre' ih =>
    have nd' : ((pre' ++ r :: post).map Row.pos).Nodup := by
      rw [List.cons_append, List.map_cons, List.nodup_cons] at nd
      exact nd.2
    have hp : p.pos ≠ (r.f, r.ei) := by
      rw [List.cons_append, List.map_cons, List.nodup_cons] at nd
      intro e
      exact nd.1 (List.mem_map.2 ⟨r, by simp, e.symm⟩)
    cases pre' with
    | nil =>
      rw [List.cons_append, List.nil_append, scan_cons_cons, scan_head val r post _ nd',
        scanStep_coeff_second, linkOf_none_prev]
      rfl
    | cons p2 pre'' =>
      have hp2 : p2.pos ≠ (r.f, r.ei) := by
        rw [List.cons_append, List.map_cons, List.nodup_cons] at nd'
        intro e
        exact nd'.1 (List.mem_map.2 ⟨r, by simp, e.symm⟩)
      rw [List.cons_append, List.cons_append, scan_cons_cons, ← List.cons_append, ih _ nd',
        scanStep_coeff_other val p p2 M _ _ hp hp2, List.getLast?_cons_cons]

/-- The index loop of `extractTT` and `extractTTi` is the scan of neighbouring rows. -/
theorem loop_eq_scan (val : Row → Int) (L : List Row) (M : Mat) :
    (List.range' 1 (L.length - 1)).foldl (fun M i =>
      scanStep val (L.getD (i - 1) default) (L.getD i default) M) M = scan val L M := by
  induction L generalizing M with
  | nil => simp [scan_nil]
  | cons a t ih =>
    cases t with
    | nil => simp [scan_single]
    | cons b t' =>
      rw [scan_cons_cons, ← ih]
      have hl : (a :: b :: t').length - 1 = (t'.length) + 1 := by simp
      have hl' : (b :: t').length - 1 = t'.length := by simp
      rw [hl, hl', List.range'_succ, List.foldl_cons]
      have hr : List.range' (1 + 1) t'.length = (List.range' 1 t'.length).map (fun x => 1 + x) := by
        rw [List.map_add_range']
      rw [hr, List.foldl_map]
      have h0 : scanStep val ((a :: b :: t').getD (1 - 1) default)
          ((a :: b :: t').getD 1 default) M = scanStep val a b M := by
        simp
      rw [h0]
      apply List.foldl_ext
      intro M' i hi
      rw [List.mem_range'_1] at hi
      obtain ⟨j, rfl⟩ : ∃ j, i = j + 1 := ⟨i - 1, by omega⟩
      have e1 : 1 + (j + 1) - 1 = (j + 1 - 1) + 1 := by omega
      have e2 : 1 + (j + 1) = (j + 1) + 1 := by omega
      rw [e1, e2, List.getD_cons_succ, List.getD_cons_succ]

theorem extractTT_eq_scan (F : Mat) (TTT : List Row) :
    triangle_triangle_adjacency_extractTT F TTT =
      scan (fun r => (r.f : Int)) TTT (Mat.Constant F.rows F.cols (-1)) :=
  loop_eq_scan (fun r => (r.f : Int)) TTT (Mat.Constant F.rows F.cols (-1))

theorem extractTTi_eq_scan (F : Mat) (TTT : List Row) :
    triangle_triangle_adjacency_extractTTi F TTT =
      scan (fun r => (r.ei : Int)) TTT (Mat.Constant F.rows F.cols (-1)) :=
  loop_eq_scan (fun r => (r.ei : Int)) TTT (Mat.Constant F.rows F.cols (-1))

/-! ## The dense path on the sorted rows -/

/-- Which neighbour a slot ends up naming depends on the keys only, not on the value written. -/
theorem linkOf_cases (prev : Option Row) (r : Row) (next : Option Row) :
    (∃ q, next = some q ∧ sameKey r q ∧
        ∀ (val : Row → Int) (old : Int), linkOf val prev r next old = val q) ∨
    (∃ p, prev = some p ∧ sameKey p r ∧ (∀ q, next = some q → ¬ sameKey r q) ∧
        ∀ (val : Row → Int) (old : Int), linkOf val prev r next old = val p) ∨
    ((∀ q, next = some q → ¬ sameKey r q) ∧ (∀ p, prev = some p → ¬ sameKey p r) ∧
        ∀ (val : Row → Int) (old : Int), linkOf val prev r next old = old) := by
  cases next with
  | some q =>
    by_cases hq : sameKey r q
    · exact Or.inl ⟨q, rfl, hq, fun val old => by simp [linkOf, hq]⟩
    · have hn : ∀ q', some q = some q' → ¬ sameKey r q' := by
        intro q' e; cases e; exact hq
      cases prev with
      | some p =>
        by_cases hp : sameKey p r
        · exact Or.inr (Or.inl ⟨p, rfl, hp, hn, fun val old => by simp [linkOf, hq, hp]⟩)
        · refine Or.inr (Or.inr ⟨hn, ?_, fun val old => by simp [linkOf, hq, hp]⟩)
          intro p' e; cases e; exact hp
      | none =>
        exact Or.inr (Or.inr ⟨hn, fun _ e => (by cases e), fun val old => by simp [linkOf, hq]⟩)
  | none =>
    have hn : ∀ q', (none : Option Row) = some q' → ¬ sameKey r q' := fun _ e => by cases e
    cases prev with
    | some p =>
      by_cases hp : sameKey p r
      · exact Or.inr (Or.inl ⟨p, rfl, hp, hn, fun val old => by simp [linkOf, hp]⟩)
      · refine Or.inr (Or.inr ⟨hn, ?_, fun val old => by simp [linkOf, hp]⟩)
        intro p' e; cases e; exact hp
    | none =>
      exact Or.inr (Or.inr ⟨hn, fun _ e => (by cases e), fun val old => by simp [linkOf]⟩)

theorem sameKey_symm {a b : Row} (h : sameKey a b) : sameKey b a :=
  ⟨h.1.symm, h.2.symm⟩

/-- In a sorted list, a later row with the key of `r` makes the row right after `r` have it. -/
theorem sorted_next {pre post : List Row} {r : Row} (hs : (pre ++ r :: post).Sorted Row.le)
    {q : Row} (hq : q ∈ post) (hk : sameKey r q) :
    ∃ q0, post.head? = some q0 ∧ sameKey r q0 := by
  have h1 : (r :: post).Sorted Row.le := (List.pairwise_append.1 hs).2.1
  cases post with
  | nil => cases hq
  | cons q0 t =>
    refine ⟨q0, rfl, ?_⟩
    have hrq0 : Row.le r q0 := (List.sorted_cons.1 h1).1 q0 (List.mem_cons_self _ _)
    rcases List.mem_cons.1 hq with rfl | hqt
    · exact hk
    · have hq0q : Row.le q0 q := (List.sorted_cons.1 (List.sorted_cons.1 h1).2).1 q hqt
      exact (sameKey_of_between hrq0 hq0q hk).1

/-- In a sorted list, an earlier row with the key of `r` makes the row right before `r` have it. -/
theorem sorted_prev {pre post : List Row} {r : Row} (hs : (pre ++ r :: post).Sorted Row.le)
    {p : Row} (hp : p ∈ pre) (hk : sameKey p r) :
    ∃ p0, pre.getLast? = some p0 ∧ sameKey p0 r := by
  rcases List.eq_nil_or_concat pre with rfl | ⟨init, p0, rfl⟩
  · cases hp
  · rw [List.concat_eq_append] at hs hp ⊢
    refine ⟨p0, List.getLast?_concat _, ?_⟩
    have h1 := List.pairwise_append.1 hs
    have hp0r : Row.le p0 r := h1.2.2 p0 (by simp) r (List.mem_cons_self _ _)
    rcases List.mem_append.1 hp with hpi | hpl
    · have hpp0 : Row.le p p0 := (List.pairwise_append.1 h1.1).2.2 p hpi p0 (by simp)
      exact (sameKey_of_between hpp0 hp0r hk).2
    · rw [List.mem_singleton] at hpl
      rw [← hpl]; exact hk

theorem preprocess_perm (F : Mat) :
    (triangle_triangle_adjacency_preprocess F []).Perm (halfEdges F) := by
  rw [preprocess_eq, List.nil_append]
  exact sort_perm _

theorem preprocess_sorted (F : Mat) :
    (triangle_triangle_adjacency_preprocess F []).Sorted Row.le := by
  rw [preprocess_eq]
  exact sort_sorted _

theorem preprocess_pos_nodup (F : Mat) :
    ((triangle_triangle_adjacency_preprocess F []).map Row.pos).Nodup := by
  have h := (preprocess_perm F).map Row.pos
  rw [halfEdges_corners] at h
  exact h.nodup_iff.2 (corners_nodup F)

theorem mem_preprocess {F : Mat} {r : Row} :
    r ∈ triangle_triangle_adjacency_preprocess F [] ↔
      ∃ f, f < F.rows ∧ ∃ i, i < F.cols ∧ r = halfEdge F f i :=
  (preprocess_perm F).mem_iff.trans mem_halfEdges

/-- Every entry of the dense result is read off the sorted rows: the row of face `f` and
corner `c` sits somewhere in the sorted list, and `TT(f,c)`, `TTi(f,c)` are the face and
the corner of its same-key neighbour there (the next row first), or `-1`. -/
theorem dense_entry (F : Mat) (f c : Nat) (hf : f < F.rows) (hc : c < F.cols) :
    ∃ pre post, triangle_triangle_adjacency_preprocess F [] = pre ++ halfEdge F f c :: post ∧
      (triangle_triangle_adjacency_TT_TTi F).1.coeff f c =
        linkOf (fun r => (r.f : Int)) pre.getLast? (halfEdge F f c) post.head? (-1) ∧
      (triangle_triangle_adjacency_TT_TTi F).2.coeff f c =
        linkOf (fun r => (r.ei : Int)) pre.getLast? (halfEdge F f c) post.head? (-1) := by
  have hmem : halfEdge F f c ∈ triangle_triangle_adjacency_preprocess F [] :=
    mem_preprocess.2 ⟨f, hf, c, hc, rfl⟩
  obtain ⟨pre, post, hL⟩ := List.mem_iff_append.1 hmem
  have nd := preprocess_pos_nodup F
  rw [hL] at nd
  refine ⟨pre, post, hL, ?_, ?_⟩
  · show (triangle_triangle_adjacency_extractTT F
      (triangle_triangle_adjacency_preprocess F [])).coeff f c = _
    rw [extractTT_eq_scan, hL]
    have h := scan_at (fun r => (r.f : Int)) pre (halfEdge F f c) post
      (Mat.Constant F.rows F.cols (-1)) nd
    rw [halfEdge_f, halfEdge_ei] at h
    exact h
  · show (triangle_triangle_adjacency_extractTTi F
      (triangle_triangle_adjacency_preprocess F [])).coeff f c = _
    rw [extractTTi_eq_scan, hL]
    have h := scan_at (fun r => (r.ei : Int)) pre (halfEdge F f c) post
      (Mat.Constant F.rows F.cols (-1)) nd
    rw [halfEdge_f, halfEdge_ei] at h
    exact h

/-- The two possible states of a slot of the dense result: it holds `-1` in both matrices
and no other pair (face, corner) has its edge, or it names in `TT` and `TTi` another pair
(face, corner) of the mesh that has its edge. -/
theorem dense_cases (F : Mat) (f c : Nat) (hf : f < F.rows) (hc : c < F.cols) :
    ((triangle_triangle_adjacency_TT_TTi F).1.coeff f c = -1 ∧
      (triangle_triangle_adjacency_TT_TTi F).2.coeff f c = -1 ∧
      ∀ g d, g < F.rows → d < F.cols → sameEdge F f c g d → g = f ∧ d = c) ∨
    (∃ g d, g < F.rows ∧ d < F.cols ∧ (g, d) ≠ (f, c) ∧ sameEdge F f c g d ∧
      (triangle_triangle_adjacency_TT_TTi F).1.coeff f c = (g : Int) ∧
      (triangle_triangle_adjacency_TT_TTi F).2.coeff f c = (d : Int)) := by
  obtain ⟨pre, post, hL, hTT, hTTi⟩ := dense_entry F f c hf hc
  have nd := preprocess_pos_nodup F
  have hs := preprocess_sorted F
  rw [hL] at nd hs
  have hpos : (halfEdge F f c).pos = (f, c) := by simp [Row.pos, halfEdge_f, halfEdge_ei]
  -- a row of the list other than the one of `(f, c)` names another pair with the same edge
  have other : ∀ s : Row, s ∈ pre ∨ s ∈ post → sameKey (halfEdge F f c) s →
      ∃ g d, g < F.rows ∧ d < F.cols ∧ (g, d) ≠ (f, c) ∧ sameEdge F f c g d ∧
        (s.f : Int) = (g : Int) ∧ (s.ei : Int) = (d : Int) := by
    intro s hsm hk
    have hsL : s ∈ triangle_triangle_adjacency_preprocess F [] := by
      rw [hL]; rcases hsm with h | h
      · exact List.mem_append_left _ h
      · exact List.mem_append_right _ (List.mem_cons_of_mem _ h)
    obtain ⟨g, hg, d, hd, rfl⟩ := mem_preprocess.1 hsL
    refine ⟨g, d, hg, hd, ?_, (sameKey_halfEdge F f c g d).1 hk, ?_, ?_⟩
    · intro e
      have hposs : (halfEdge F g d).pos = (halfEdge F f c).pos := by
        rw [hpos]; simp [Row.pos, halfEdge_f, halfEdge_ei]; exact Prod.mk.inj e
      rw [List.map_append, List.map_cons, List.nodup_append] at nd
      rcases hsm with h | h
      · exact nd.2.2 (List.mem_map.2 ⟨_, h, hposs⟩) (List.mem_cons_self _ _)
      · exact (List.nodup_cons.1 nd.2.1).1 (List.mem_map.2 ⟨_, h, hposs⟩)
    · rw [halfEdge_f]
    · rw [halfEdge_ei]
  rcases linkOf_cases pre.getLast? (halfEdge F f c) post.head? with
    ⟨q, hq, hk, hv⟩ | ⟨p, hp, hk, _, hv⟩ | ⟨hnq, hnp, hv⟩
  · right
    obtain ⟨g, d, hg, hd, hne, hse, e1, e2⟩ := other q (Or.inr (List.mem_of_mem_head? hq)) hk
    exact ⟨g, d, hg, hd, hne, hse, by rw [hTT, hv, e1], by rw [hTTi, hv, e2]⟩
  · right
    obtain ⟨g, d, hg, hd, hne, hse, e1, e2⟩ :=
      other p (Or.inl (List.mem_of_mem_getLast? hp)) (sameKey_symm hk)
    exact ⟨g, d, hg, hd, hne, hse, by rw [hTT, hv, e1], by rw [hTTi, hv, e2]⟩
  · left
    refine ⟨by rw [hTT, hv], by rw [hTTi, hv], ?_⟩
    intro g d hg hd hse
    have hk : sameKey (halfEdge F f c) (halfEdge F g d) := (sameKey_halfEdge F f c g d).2 hse
    have hsL : halfEdge F g d ∈ pre ++ halfEdge F f c :: post := by
      rw [← hL]; exact mem_preprocess.2 ⟨g, hg, d, hd, rfl⟩
    rcases List.mem_append.1 hsL with h | h
    · obtain ⟨p0, hp0, hk0⟩ := sorted_prev hs h (sameKey_symm hk)
      exact absurd hk0 (hnp p0 hp0)
    · rcases List.mem_cons.1 h with h | h
      · have e1 := congrArg Row.f h
        have e2 := congrArg Row.ei h
        rw [halfEdge_f, halfEdge_f] at e1
        rw [halfEdge_ei, halfEdge_ei] at e2
        exact ⟨e1, e2⟩
      · obtain ⟨q0, hq0, hk0⟩ := sorted_next hs h hk
        exact absurd hk0 (hnq q0 hq0)

/-! ## Edges shared by exactly two pairs (face, corner) -/

theorem sameEdge_refl (F : Mat) (f c : Nat) : sameEdge F f c f c :=
  Or.inl ⟨rfl, rfl⟩

theorem sameEdge_symm {F : Mat} {f c g d : Nat} (h : sameEdge F f c g d) :
    sameEdge F g d f c := by
  unfold sameEdge at *; omega

theorem sameEdge_trans {F : Mat} {f c g d h e : Nat} (h1 : sameEdge F f c g d)
    (h2 : sameEdge F g d h e) : sameEdge F f c h e := by
  unfold sameEdge at *; omega

theorem TT_eq_fst (F : Mat) :
    triangle_triangle_adjacency_TT F = (triangle_triangle_adjacency_TT_TTi F).1 := rfl

/-- When the edge of `(f, c)` is shared with `(g, d)` and with no third pair, the slot of
`(f, c)` names `(g, d)`. -/
theorem dense_two (F : Mat) (f c g d : Nat) (hf : f < F.rows) (hc : c < F.cols)
    (hne : (g, d) ≠ (f, c)) (hse : sameEdge F f c g d) (hg : g < F.rows) (hd : d < F.cols)
    (honly : ∀ h e, h < F.rows → e < F.cols → sameEdge F f c h e →
      (h = f ∧ e = c) ∨ (h = g ∧ e = d)) :
    (triangle_triangle_adjacency_TT_TTi F).1.coeff f c = (g : Int) ∧
      (triangle_triangle_adjacency_TT_TTi F).2.coeff f c = (d : Int) := by
  rcases dense_cases F f c hf hc with ⟨_, _, hall⟩ | ⟨g', d', hg', hd', hne', hse', h1, h2⟩
  · obtain ⟨rfl, rfl⟩ := hall g d hg hd hse
    exact absurd rfl hne
  · rcases honly g' d' hg' hd' hse' with ⟨rfl, rfl⟩ | ⟨rfl, rfl⟩
    · exact absurd rfl hne'
    · exact ⟨h1, h2⟩

/-- An edge of multiplicity at most two has at most one pair (face, corner) besides a given one. -/
theorem only_of_multiplicity_le_two (F : Mat) (f c g d : Nat) (hf : f < F.rows)
    (hc : c < F.cols) (hm : multiplicity F f c ≤ 2) (hg : g < F.rows) (hd : d < F.cols)
    (hne : (g, d) ≠ (f, c)) (hse : sameEdge F f c g d) :
    ∀ h e, h < F.rows → e < F.cols → sameEdge F f c h e →
      (h = f ∧ e = c) ∨ (h = g ∧ e = d) := by
  intro h e hh he hse'
  by_contra hcon
  have n1 : (h, e) ≠ (f, c) := fun e1 => hcon (Or.inl (Prod.mk.inj e1))
  have n2 : (h, e) ≠ (g, d) := fun e1 => hcon (Or.inr (Prod.mk.inj e1))
  have hnd : [(f, c), (g, d), (h, e)].Nodup := by
    simp only [List.nodup_cons, List.mem_cons, List.mem_singleton, List.not_mem_nil,
      not_or, List.nodup_nil, and_true, not_false_eq_true]
    exact ⟨⟨fun e1 => hne e1.symm, fun e1 => n1 e1.symm⟩, fun e1 => n2 e1.symm⟩
  have hsub : [(f, c), (g, d), (h, e)] ⊆
      (corners F).filter fun s => decide (sameEdge F f c s.1 s.2) := by
    intro s hs
    simp only [List.mem_cons, List.mem_singleton, List.not_mem_nil, or_false] at hs
    rw [List.mem_filter, mem_corners]
    rcases hs with rfl | rfl | rfl
    · exact ⟨⟨hf, hc⟩, decide_eq_true (sameEdge_refl F f c)⟩
    · exact ⟨⟨hg, hd⟩, decide_eq_true hse⟩
    · exact ⟨⟨hh, he⟩, decide_eq_true hse'⟩
  have hlen := (List.subperm_of_subset hnd hsub).length_le
  unfold multiplicity at hm
  simp only [List.length_cons, List.length_nil] at hlen
  omega

/-! ## Properties of the dense path -/

/-- C1, as amended: after the dense call that fills `TT` and `TTi`, for every face `f` and
corner `c` whose edge has multiplicity at most two, if `TT(f,c) = g ≥ 0` then
`TT(g, TTi(f,c)) = f` and `TTi(g, TTi(f,c)) = c`. -/
theorem dense_symmetry_of_multiplicity_le_two (F : Mat) (f c : Nat)
    (hf : f < F.rows) (hc : c < F.cols) (hm : multiplicity F f c ≤ 2)
    (hpos : 0 ≤ (triangle_triangle_adjacency_TT_TTi F).1.coeff f c) :
    (triangle_triangle_adjacency_TT_TTi F).1.coeff
        ((triangle_triangle_adjacency_TT_TTi F).1.coeff f c).toNat
        ((triangle_triangle_adjacency_TT_TTi F).2.coeff f c).toNat = (f : Int) ∧
      (triangle_triangle_adjacency_TT_TTi F).2.coeff
        ((triangle_triangle_adjacency_TT_TTi F).1.coeff f c).toNat
        ((triangle_triangle_adjacency_TT_TTi F).2.coeff f c).toNat = (c : Int) := by
  rcases dense_cases F f c hf hc with ⟨h1, _, _⟩ | ⟨g, d, hg, hd, hne, hse, h1, h2⟩
  · rw [h1] at hpos; omega
  · rw [h1, h2, Int.toNat_ofNat, Int.toNat_ofNat]
    have honly := only_of_multiplicity_le_two F f c g d hf hc hm hg hd hne hse
    refine dense_two F g d f c hg hd (fun e => hne e.symm) (sameEdge_symm hse) hf hc ?_
    intro h e hh he hse'
    exact (honly h e hh he (sameEdge_trans hse hse')).symm

/-- Witness of C1 as amended: the shared edge of the two triangles of scenario B. -/
theorem dense_symmetry_witness :
    multiplicity meshB 0 1 ≤ 2 ∧
      (triangle_triangle_adjacency_TT_TTi meshB).1.coeff 0 1 = 1 ∧
      (triangle_triangle_adjacency_TT_TTi meshB).2.coeff 0 1 = 2 ∧
      (triangle_triangle_adjacency_TT_TTi meshB).1.coeff
        ((triangle_triangle_adjacency_TT_TTi meshB).1.coeff 0 1).toNat
        ((triangle_triangle_adjacency_TT_TTi meshB).2.coeff 0 1).toNat = ((0 : Nat) : Int) ∧
      (triangle_triangle_adjacency_TT_TTi meshB).2.coeff
        ((triangle_triangle_adjacency_TT_TTi meshB).1.coeff 0 1).toNat
        ((triangle_triangle_adjacency_TT_TTi meshB).2.coeff 0 1).toNat = ((1 : Nat) : Int) :=
  ⟨by decide, by decide, by decide,
    dense_symmetry_of_multiplicity_le_two meshB 0 1 (by decide) (by decide) (by decide)
      (by decide)⟩

/-- Counterexample to C1 as stated: on the three triangles of scenario C that share the
edge (0,1), `TT(0,0) = 1 ≥ 0` and `TTi(0,0) = 0`, but `TT(1,0) = 2`, not `0`. -/
theorem dense_symmetry_fails_on_shared_edge :
    (0 : Nat) < meshC.rows ∧ (0 : Nat) < meshC.cols ∧
      0 ≤ (triangle_triangle_adjacency_TT_TTi meshC).1.coeff 0 0 ∧
      (triangle_triangle_adjacency_TT_TTi meshC).1.coeff 0 0 = 1 ∧
      (triangle_triangle_adjacency_TT_TTi meshC).2.coeff 0 0 = 0 ∧
      (triangle_triangle_adjacency_TT_TTi meshC).1.coeff
        ((triangle_triangle_adjacency_TT_TTi meshC).1.coeff 0 0).toNat
        ((triangle_triangle_adjacency_TT_TTi meshC).2.coeff 0 0).toNat = 2 ∧
      (triangle_triangle_adjacency_TT_TTi meshC).1.coeff
        ((triangle_triangle_adjacency_TT_TTi meshC).1.coeff 0 0).toNat
        ((triangle_triangle_adjacency_TT_TTi meshC).2.coeff 0 0).toNat ≠ ((0 : Nat) : Int) := by
  decide

/-- C2: for every face matrix and every edge that is the edge of exactly two pairs
(face, corner) `(f, c)` and `(g, d)`, the dense result has `TT(f,c) = g`, `TTi(f,c) = d`,
`TT(g,d) = f` and `TTi(g,d) = c`, whatever the multiplicities of the other edges. -/
theorem dense_manifold_edge (F : Mat) (f c g d : Nat)
    (hf : f < F.rows) (hc : c < F.cols) (hg : g < F.rows) (hd : d < F.cols)
    (hne : (f, c) ≠ (g, d)) (hse : sameEdge F f c g d)
    (honly : ∀ h, h < F.rows → ∀ e, e < F.cols → sameEdge F f c h e →
      (h = f ∧ e = c) ∨ (h = g ∧ e = d)) :
    (triangle_triangle_adjacency_TT_TTi F).1.coeff f c = (g : Int) ∧
      (triangle_triangle_adjacency_TT_TTi F).2.coeff f c = (d : Int) ∧
      (triangle_triangle_adjacency_TT_TTi F).1.coeff g d = (f : Int) ∧
      (triangle_triangle_adjacency_TT_TTi F).2.coeff g d = (c : Int) := by
  have h1 := dense_two F f c g d hf hc (fun e => hne e.symm) hse hg hd
    (fun h e hh he hs => honly h hh e he hs)
  have h2 := dense_two F g d f c hg hd hne (sameEdge_symm hse) hf hc
    (fun h e hh he hs => (honly h hh e he (sameEdge_trans hse hs)).symm)
  exact ⟨h1.1, h1.2, h2.1, h2.2⟩

/-- Witness of C2, scenario B: the faces `[0,1,2]` and `[1,3,2]` share the edge (1,2) at
the corners `(0,1)` and `(1,2)`; `TT(0,1) = 1`, `TT(1,2) = 0` and every other entry of
`TT` is `-1`. -/
theorem dense_manifold_edge_witness :
    ((triangle_triangle_adjacency_TT_TTi meshB).1.coeff 0 1 = ((1 : Nat) : Int) ∧
      (triangle_triangle_adjacency_TT_TTi meshB).2.coeff 0 1 = ((2 : Nat) : Int) ∧
      (triangle_triangle_adjacency_TT_TTi meshB).1.coeff 1 2 = ((0 : Nat) : Int) ∧
      (triangle_triangle_adjacency_TT_TTi meshB).2.coeff 1 2 = ((1 : Nat) : Int)) ∧
    (triangle_triangle_adjacency_TT_TTi meshB).1.toRows = [[-1, 1, -1], [-1, -1, 0]] ∧
    (triangle_triangle_adjacency_TT_TTi meshB).2.toRows = [[-1, 2, -1], [-1, -1, 1]] :=
  ⟨dense_manifold_edge meshB 0 1 1 2 (by decide) (by decide) (by decide) (by decide)
    (by decide) (by decide) (by decide), by decide, by decide⟩

/-- C3, as amended: for every face matrix, if no other pair (face, corner), of another
face or of `f` itself at another corner, has an edge with the two endpoints of the edge
of face `f` at corner `c`, then the dense result has `TT(f,c) = -1`. -/
theorem dense_boundary (F : Mat) (f c : Nat) (hf : f < F.rows) (hc : c < F.cols)
    (halone : ∀ g, g < F.rows → ∀ d, d < F.cols → (g, d) ≠ (f, c) → ¬ sameEdge F f c g d) :
    (triangle_triangle_adjacency_TT F).coeff f c = -1 := by
  rw [TT_eq_fst]
  rcases dense_cases F f c hf hc with ⟨h1, _, _⟩ | ⟨g, d, hg, hd, hne, hse, _, _⟩
  · exact h1
  · exact absurd hse (halone g hg d hd hne)

/-- Witness of C3 as amended, scenario A: the single triangle `[[0,1,2]]` has
`TT = [[-1,-1,-1]]`. -/
theorem dense_boundary_witness :
    (triangle_triangle_adjacency_TT meshA).coeff 0 0 = -1 ∧
      (triangle_triangle_adjacency_TT meshA).toRows = [[-1, -1, -1]] :=
  ⟨dense_boundary meshA 0 0 (by decide) (by decide) (by decide), by decide⟩

/-- Counterexample to C3 as stated: the one face `[0,1,0]` has the edge {0,1} at its
corners 0 and 1. No face other than face 0 has that edge, yet `TT(0,0) = 0`, not `-1`. -/
theorem dense_boundary_fails_on_folded_face :
    (0 : Nat) < meshFold.rows ∧ (0 : Nat) < meshFold.cols ∧
      (∀ g, g < meshFold.rows → g ≠ 0 → ∀ d, d < meshFold.cols → ¬ sameEdge meshFold 0 0 g d) ∧
      (triangle_triangle_adjacency_TT meshFold).coeff 0 0 = 0 ∧
      (triangle_triangle_adjacency_TT meshFold).coeff 0 0 ≠ -1 := by
  decide

/-- C8, as amended: on the three triangles `[[0,1,2],[0,1,3],[0,1,4]]` the dense `TT` is
`[[1,-1,-1],[2,-1,-1],[1,-1,-1]]`: across the shared edge (0,1), at corner 0, only the
faces 1 and 2 name each other, face 0 names face 1 without being named back, and no
entry of that corner is `-1`. More generally, on every face matrix, a pair (face, corner)
whose edge is also the edge of another pair holds a face, not the sentinel `-1`; the two
ends of a run of rows of one edge are no exception. -/
theorem dense_three_triangles :
    (triangle_triangle_adjacency_TT meshC).toRows = [[1, -1, -1], [2, -1, -1], [1, -1, -1]] ∧
    ∀ (F : Mat) (f c : Nat), f < F.rows → c < F.cols →
      ∀ g, g < F.rows → ∀ d, d < F.cols → (g, d) ≠ (f, c) → sameEdge F f c g d →
        0 ≤ (triangle_triangle_adjacency_TT F).coeff f c ∧
          (triangle_triangle_adjacency_TT F).coeff f c ≠ -1 := by
  refine ⟨by decide, ?_⟩
  intro F f c hf hc g hg d hd hne hse
  rw [TT_eq_fst]
  rcases dense_cases F f c hf hc with ⟨_, _, hall⟩ | ⟨g', d', _, _, _, _, h1, _⟩
  · obtain ⟨rfl, rfl⟩ := hall g d hg hd hse
    exact absurd rfl hne
  · rw [h1]; omega

/-- Witness of C8 as amended: in scenario C the rows of the edge (0,1) are those of the
faces 0, 1, 2 at corner 0, in this order; the slots of the first and of the last one hold
a face. -/
theorem dense_three_triangles_witness :
    triangle_triangle_adjacency_preprocess meshC [] =
      [⟨0, 1, 0, 0⟩, ⟨0, 1, 1, 0⟩, ⟨0, 1, 2, 0⟩, ⟨0, 2, 0, 2⟩, ⟨0, 3, 1, 2⟩, ⟨0, 4, 2, 2⟩,
        ⟨1, 2, 0, 1⟩, ⟨1, 3, 1, 1⟩, ⟨1, 4, 2, 1⟩] ∧
    (0 ≤ (triangle_triangle_adjacency_TT meshC).coeff 0 0 ∧
      (triangle_triangle_adjacency_TT meshC).coeff 0 0 ≠ -1) ∧
    (0 ≤ (triangle_triangle_adjacency_TT meshC).coeff 2 0 ∧
      (triangle_triangle_adjacency_TT meshC).coeff 2 0 ≠ -1) :=
  ⟨by decide,
    dense_three_triangles.2 meshC 0 0 (by decide) (by decide) 1 (by decide) 0 (by decide)
      (by decide) (by decide),
    dense_three_triangles.2 meshC 2 0 (by decide) (by decide) 1 (by decide) 0 (by decide)
      (by decide) (by decide)⟩

/-- Counterexample to C8 as stated: on the three triangles sharing the edge (0,1), no face
has `-1` at corner 0, the corner of the shared edge: `TT(0,0) = 1`, `TT(1,0) = 2` and
`TT(2,0) = 1`. -/
theorem dense_three_triangles_no_sentinel :
    meshC.rows = 3 ∧
      (∀ f, f < 3 → sameEdge meshC f 0 0 0) ∧
      (∀ f, f < 3 → (triangle_triangle_adjacency_TT meshC).coeff f 0 ≠ -1) ∧
      (triangle_triangle_adjacency_TT meshC).coeff 0 0 = 1 ∧
      (triangle_triangle_adjacency_TT meshC).coeff 1 0 = 2 ∧
      (triangle_triangle_adjacency_TT meshC).coeff 2 0 = 1 := by
  decide

/-- C9: for every face matrix, manifold or not, after the dense call that fills `TT` and
`TTi`, whenever `TT(f,c) = g ≥ 0`, then `g < m`, `d = TTi(f,c)` satisfies `0 ≤ d < w`,
`(g, d) ≠ (f, c)`, and the edge of `g` at corner `d` has the same unordered pair of
endpoints as the edge of `f` at corner `c`. -/
theorem dense_TTi_names_matching_edge (F : Mat) (f c : Nat)
    (hf : f < F.rows) (hc : c < F.cols)
    (hpos : 0 ≤ (triangle_triangle_adjacency_TT_TTi F).1.coeff f c) :
    (triangle_triangle_adjacency_TT_TTi F).1.coeff f c < (F.rows : Int) ∧
      0 ≤ (triangle_triangle_adjacency_TT_TTi F).2.coeff f c ∧
      (triangle_triangle_adjacency_TT_TTi F).2.coeff f c < (F.cols : Int) ∧
      (((triangle_triangle_adjacency_TT_TTi F).1.coeff f c).toNat,
        ((triangle_triangle_adjacency_TT_TTi F).2.coeff f c).toNat) ≠ (f, c) ∧
      sameEdge F ((triangle_triangle_adjacency_TT_TTi F).1.coeff f c).toNat
        ((triangle_triangle_adjacency_TT_TTi F).2.coeff f c).toNat f c := by
  rcases dense_cases F f c hf hc with ⟨h1, _, _⟩ | ⟨g, d, hg, hd, hne, hse, h1, h2⟩
  · rw [h1] at hpos; omega
  · rw [h1, h2, Int.toNat_ofNat, Int.toNat_ofNat]
    exact ⟨by omega, by omega, by omega, hne, sameEdge_symm hse⟩

/-- Witness of C9: face 1, corner 0 of scenario C, on the edge shared by three faces;
`TT(1,0) = 2` and `TTi(1,0) = 0`. -/
theorem dense_TTi_names_matching_edge_witness :
    (triangle_triangle_adjacency_TT_TTi meshC).1.coeff 1 0 = 2 ∧
      (triangle_triangle_adjacency_TT_TTi meshC).2.coeff 1 0 = 0 ∧
      ((triangle_triangle_adjacency_TT_TTi meshC).1.coeff 1 0 < (meshC.rows : Int) ∧
      0 ≤ (triangle_triangle_adjacency_TT_TTi meshC).2.coeff 1 0 ∧
      (triangle_triangle_adjacency_TT_TTi meshC).2.coeff 1 0 < (meshC.cols : Int) ∧
      (((triangle_triangle_adjacency_TT_TTi meshC).1.coeff 1 0).toNat,
        ((triangle_triangle_adjacency_TT_TTi meshC).2.coeff 1 0).toNat) ≠ (1, 0) ∧
      sameEdge meshC ((triangle_triangle_adjacency_TT_TTi meshC).1.coeff 1 0).toNat
        ((triangle_triangle_adjacency_TT_TTi meshC).2.coeff 1 0).toNat 1 0) :=
  ⟨by decide, by decide,
    dense_TTi_names_matching_edge meshC 1 0 (by decide) (by decide) (by decide)⟩

/-! ## The containers of the list-valued path -/

theorem length_modifyAt {α : Type} (g : α → α) (n : Nat) (l : List α) :
    (modifyAt g n l).length = l.length := by
  induction l generalizing n with
  | nil => cases n <;> rfl
  | cons x xs ih =>
    cases n with
    | zero => rfl
    | succ k => simp [modifyAt, ih]

theorem getD_modifyAt {α : Type} (g : α → α) (n k : Nat) (l : List α) (d : α) :
    (modifyAt g n l).getD k d = if k = n ∧ n < l.length then g (l.getD n d) else l.getD k d := by
  induction l generalizing n k with
  | nil => cases n <;> simp [modifyAt]
  | cons x xs ih =>
    cases n with
    | zero =>
      cases k with
      | zero => simp [modifyAt]
      | succ j => simp [modifyAt]
    | succ i =>
      cases k with
      | zero => simp [modifyAt]
      | succ j =>
        have e : (j + 1 = i + 1 ∧ i + 1 < (x :: xs).length) ↔ (j = i ∧ i < xs.length) := by
          simp
        show (modifyAt g i xs).getD j d = _
        rw [ih]
        simp only [e, List.getD_cons_succ]

theorem modifyAt_modifyAt {α : Type} (g h : α → α) (n : Nat) (l : List α) :
    modifyAt g n (modifyAt h n l) = modifyAt (fun x => g (h x)) n l := by
  induction l generalizing n with
  | nil => cases n <;> rfl
  | cons x xs ih =>
    cases n with
    | zero => rfl
    | succ k => simp [modifyAt, ih]

theorem modifyAt_id {α : Type} (g : α → α) (hg : ∀ x, g x = x) (n : Nat) (l : List α) :
    modifyAt g n l = l := by
  induction l generalizing n with
  | nil => cases n <;> rfl
  | cons x xs ih =>
    cases n with
    | zero => simp [modifyAt, hg]
    | succ k => simp [modifyAt, ih]

/-- Pushing the elements of `xs` one by one onto `T[f][c]` appends `xs` to it. -/
theorem foldl_push_back_at (T : Lists) (f c : Nat) (xs : List Int) :
    xs.foldl (fun T x => push_back_at T f c x) T =
      modifyAt (modifyAt (fun l => l ++ xs) c) f T := by
  induction xs generalizing T with
  | nil =>
    rw [List.foldl_nil]
    exact (modifyAt_id _ (fun row => modifyAt_id _ (fun l => List.append_nil l) c row) f T).symm
  | cons x xs ih =>
    rw [List.foldl_cons, ih]
    unfold push_back_at
    rw [modifyAt_modifyAt]
    congr 1
    funext row
    rw [modifyAt_modifyAt]
    congr 1
    funext l
    simp

theorem slot_modifyAt (T : Lists) (f c : Nat) (h : List Int → List Int) (f' c' : Nat) :
    slot (modifyAt (modifyAt h c) f T) f' c' =
      if f' = f ∧ c' = c ∧ hasSlot T f c then h (slot T f c) else slot T f' c' := by
  unfold slot hasSlot
  rw [getD_modifyAt]
  by_cases h1 : f' = f ∧ f < T.length
  · rw [if_pos h1, getD_modifyAt]
    obtain ⟨rfl, hlt⟩ := h1
    by_cases h2 : c' = c ∧ c < (T.getD f' []).length
    · rw [if_pos h2, if_pos ⟨rfl, h2.1, hlt, h2.2⟩]
    · rw [if_neg h2, if_neg (fun h3 => h2 ⟨h3.2.1, h3.2.2.2⟩)]
  · rw [if_neg h1, if_neg (fun h3 => h1 ⟨h3.1, h3.2.2.1⟩)]

theorem hasSlot_modifyAt (T : Lists) (f c : Nat) (h : List Int → List Int) (f' c' : Nat) :
    hasSlot (modifyAt (modifyAt h c) f T) f' c' ↔ hasSlot T f' c' := by
  unfold hasSlot
  rw [length_modifyAt, getD_modifyAt]
  by_cases h1 : f' = f ∧ f < T.length
  · rw [if_pos h1, length_modifyAt]
    obtain ⟨rfl, _⟩ := h1
    rfl
  · rw [if_neg h1]

/-- The slot `[f][c]` after a sequence of appends to slots that are pairwise distinct. -/
theorem slot_foldl_append (l : List (Nat × Nat)) (nd : l.Nodup) (xs : Nat → Nat → List Int)
    (T : Lists) (f c : Nat) :
    slot (l.foldl (fun T p => modifyAt (modifyAt (fun l => l ++ xs p.1 p.2) p.2) p.1 T) T) f c =
      if (f, c) ∈ l ∧ hasSlot T f c then slot T f c ++ xs f c else slot T f c := by
  induction l generalizing T with
  | nil => simp
  | cons p t ih =>
    obtain ⟨pf, pc⟩ := p
    rw [List.nodup_cons] at nd
    rw [List.foldl_cons, ih nd.2]
    simp only [slot_modifyAt, hasSlot_modifyAt]
    by_cases hp : f = pf ∧ c = pc
    · obtain ⟨rfl, rfl⟩ := hp
      by_cases hs : hasSlot T f c
      · simp [nd.1, hs]
      · simp [nd.1, hs]
    · have hp' : (f, c) ≠ (pf, pc) := fun e => hp (Prod.mk.inj e)
      have hp'' : ¬ (f = pf ∧ c = pc ∧ hasSlot T pf pc) := fun e => hp ⟨e.1, e.2.1⟩
      simp only [List.mem_cons, hp', false_or, if_neg hp'']

/-- The slot `[f][c]` after the three loops: the bucket of `(f, c)`, converted, is appended. -/
theorem slot_pushBuckets (m : Nat) (EMAP : List Nat) (uE2E : List (List Nat)) (conv : Nat → Int)
    (T : Lists) (f c : Nat) :
    slot (pushBuckets m EMAP uE2E conv T) f c =
      if (f < m ∧ c < 3) ∧ hasSlot T f c then
        slot T f c ++ (bucket m EMAP uE2E f c).map conv
      else slot T f c := by
  unfold pushBuckets
  have h1 : ∀ (T : Lists) (p : Nat × Nat),
      (bucket m EMAP uE2E p.1 p.2).foldl (fun T ne => push_back_at T p.1 p.2 (conv ne)) T =
        modifyAt (modifyAt (fun l => l ++ (bucket m EMAP uE2E p.1 p.2).map conv) p.2) p.1 T := by
    intro T p
    rw [← foldl_push_back_at, List.foldl_map]
  simp only [h1]
  rw [slot_foldl_append _ (List.Nodup.product (List.nodup_range _) (List.nodup_range _))
    (fun f c => (bucket m EMAP uE2E f c).map conv)]
  simp only [List.mem_product, List.mem_range]

theorem foldl_product {α β γ : Type} (G : γ → α → β → γ) (l1 : List α) (l2 : List β) (a : γ) :
    l1.foldl (fun a x => l2.foldl (fun a y => G a x y) a) a =
      (l1 ×ˢ l2).foldl (fun a p => G a p.1 p.2) a := by
  induction l1 generalizing a with
  | nil => rfl
  | cons x t ih =>
    rw [List.foldl_cons, ih, List.product_cons, List.foldl_append, List.foldl_map]

theorem foldl_pair {α β γ : Type} (G1 : α → γ → α) (G2 : β → γ → β) (l : List γ) (a : α) (b : β) :
    l.foldl (fun (acc : α × β) x => (G1 acc.1 x, G2 acc.2 x)) (a, b) =
      (l.foldl G1 a, l.foldl G2 b) := by
  induction l generalizing a b with
  | nil => rfl
  | cons x t ih => rw [List.foldl_cons, ih, List.foldl_cons, List.foldl_cons]

theorem foldl_keep {α γ : Type} (l : List γ) (b : α) : l.foldl (fun b _ => b) b = b := by
  induction l with
  | nil => rfl
  | cons x t ih => rw [List.foldl_cons, ih]

/-- What `triangle_triangle_adjacency_E` does: it aborts, leaving the containers alone, when
the number of rows of `E` is not a multiple of three; otherwise it resizes `TT` (and `TTi`
when asked to) and pushes every bucket onto its slot, the faces `ne % m` on `TT` and the
corners `ne / m` on `TTi`. -/
theorem triangle_triangle_adjacency_E_eq (E : Mat) (EMAP : List Nat) (uE2E : List (List Nat))
    (construct_TTi : Bool) (TT TTi : Lists) :
    triangle_triangle_adjacency_E E EMAP uE2E construct_TTi TT TTi =
      if E.rows ≠ E.rows / 3 * 3 then Outcome.aborted TT TTi else
        Outcome.returned
          (pushBuckets (E.rows / 3) EMAP uE2E (fun ne => ((ne % (E.rows / 3) : Nat) : Int))
            (resize TT (E.rows / 3) (List.replicate 3 [])))
          (if construct_TTi then
            pushBuckets (E.rows / 3) EMAP uE2E (fun ne => ((ne / (E.rows / 3) : Nat) : Int))
              (resize TTi (E.rows / 3) (List.replicate 3 []))
          else TTi) := by
  unfold triangle_triangle_adjacency_E
  simp only []
  split
  · rfl
  · rw [foldl_product (fun (acc : Lists × Lists) f c =>
      (uE2E.getD (EMAP.getD (f + E.rows / 3 * c) 0) []).foldl (fun (acc : Lists × Lists) ne =>
        if construct_TTi = true then
          (push_back_at acc.1 f c ((ne % (E.rows / 3) : Nat) : Int),
            push_back_at acc.2 f c ((ne / (E.rows / 3) : Nat) : Int))
        else (push_back_at acc.1 f c ((ne % (E.rows / 3) : Nat) : Int), acc.2)) acc)]
    cases construct_TTi with
    | true =>
      simp only [if_true]
      have h : ∀ (acc : Lists × Lists) (p : Nat × Nat),
          (uE2E.getD (EMAP.getD (p.1 + E.rows / 3 * p.2) 0) []).foldl
            (fun (acc : Lists × Lists) ne =>
              (push_back_at acc.1 p.1 p.2 ((ne % (E.rows / 3) : Nat) : Int),
                push_back_at acc.2 p.1 p.2 ((ne / (E.rows / 3) : Nat) : Int))) acc =
          ((bucket (E.rows / 3) EMAP uE2E p.1 p.2).foldl
              (fun T ne => push_back_at T p.1 p.2 ((ne % (E.rows / 3) : Nat) : Int)) acc.1,
            (bucket (E.rows / 3) EMAP uE2E p.1 p.2).foldl
              (fun T ne => push_back_at T p.1 p.2 ((ne / (E.rows / 3) : Nat) : Int)) acc.2) := by
        intro acc p
        exact foldl_pair (fun T ne => push_back_at T p.1 p.2 ((ne % (E.rows / 3) : Nat) : Int))
          (fun T ne => push_back_at T p.1 p.2 ((ne / (E.rows / 3) : Nat) : Int)) _ acc.1 acc.2
      simp only [h]
      rw [foldl_pair (fun T (p : Nat × Nat) => (bucket (E.rows / 3) EMAP uE2E p.1 p.2).foldl
          (fun T ne => push_back_at T p.1 p.2 ((ne % (E.rows / 3) : Nat) : Int)) T)
        (fun T (p : Nat × Nat) => (bucket (E.rows / 3) EMAP uE2E p.1 p.2).foldl
          (fun T ne => push_back_at T p.1 p.2 ((ne / (E.rows / 3) : Nat) : Int)) T)]
      rfl
    | false =>
      simp only [Bool.false_eq_true, if_false]
      have h : ∀ (acc : Lists × Lists) (p : Nat × Nat),
          (uE2E.getD (EMAP.getD (p.1 + E.rows / 3 * p.2) 0) []).foldl
            (fun (acc : Lists × Lists) ne =>
              (push_back_at acc.1 p.1 p.2 ((ne % (E.rows / 3) : Nat) : Int), acc.2)) acc =
          ((bucket (E.rows / 3) EMAP uE2E p.1 p.2).foldl
              (fun T ne => push_back_at T p.1 p.2 ((ne % (E.rows / 3) : Nat) : Int)) acc.1,
            acc.2) := by
        intro acc p
        have := foldl_pair (fun T ne => push_back_at T p.1 p.2 ((ne % (E.rows / 3) : Nat) : Int))
          (fun (T : Lists) (_ : Nat) => T) (bucket (E.rows / 3) EMAP uE2E p.1 p.2) acc.1 acc.2
        rw [foldl_keep] at this
        exact this
      simp only [h]
      have := foldl_pair (fun T (p : Nat × Nat) => (bucket (E.rows / 3) EMAP uE2E p.1 p.2).foldl
          (fun T ne => push_back_at T p.1 p.2 ((ne % (E.rows / 3) : Nat) : Int)) T)
        (fun (T : Lists) (_ : Nat × Nat) => T) (List.range (E.rows / 3) ×ˢ List.range 3)
        (resize TT (E.rows / 3) (List.replicate 3 [])) TTi
      rw [foldl_keep] at this
      rw [this]
      rfl

/-! ## The list-valued path from empty containers -/

theorem resize_nil {α : Type} (n : Nat) (x : α) : resize [] n x = List.replicate n x := by
  simp [resize]

theorem getD_replicate_lt {α : Type} (x d : α) (n k : Nat) (hk : k < n) :
    (List.replicate n x).getD k d = x := by
  induction n generalizing k with
  | zero => omega
  | succ n ih =>
    cases k with
    | zero => rfl
    | succ j =>
      rw [List.replicate_succ, List.getD_cons_succ]
      exact ih j (by omega)

theorem hasSlot_replicate (m f c : Nat) (hf : f < m) (hc : c < 3) :
    hasSlot (List.replicate m (List.replicate 3 ([] : List Int))) f c := by
  unfold hasSlot
  rw [List.length_replicate, getD_replicate_lt _ _ _ _ hf, List.length_replicate]
  exact ⟨hf, hc⟩

theorem slot_replicate (m f c : Nat) (hf : f < m) (hc : c < 3) :
    slot (List.replicate m (List.replicate 3 ([] : List Int))) f c = [] := by
  unfold slot
  rw [getD_replicate_lt _ _ _ _ hf, getD_replicate_lt _ _ _ _ hc]

/-- From empty containers, the list at `[f][c]` is the whole bucket of `(f, c)`, converted. -/
theorem slot_pushBuckets_nil (m : Nat) (EMAP : List Nat) (uE2E : List (List Nat))
    (conv : Nat → Int) (f c : Nat) (hf : f < m) (hc : c < 3) :
    slot (pushBuckets m EMAP uE2E conv (resize [] m (List.replicate 3 []))) f c =
      (bucket m EMAP uE2E f c).map conv := by
  rw [slot_pushBuckets, resize_nil, if_pos ⟨⟨hf, hc⟩, hasSlot_replicate m f c hf hc⟩,
    slot_replicate m f c hf hc, List.nil_append]

theorem row_lt (m f c : Nat) (hf : f < m) (hc : c < 3) : f + m * c < 3 * m := by
  interval_cases c <;> omega

theorem row_mod (m f c : Nat) (hf : f < m) : (f + m * c) % m = f := by
  rw [Nat.add_mul_mod_self_left, Nat.mod_eq_of_lt hf]

theorem row_div (m f c : Nat) (hf : f < m) : (f + m * c) / m = c := by
  rw [Nat.add_mul_div_left _ _ (by omega : 0 < m), Nat.div_eq_of_lt hf, Nat.zero_add]

/-- With rows of `E` numbering `3m`, the call returns and its `TT` is the one of
`triangle_triangle_adjacency_E_eq`. -/
theorem triangle_triangle_adjacency_E_returned (m : Nat) (E : Mat) (EMAP : List Nat)
    (uE2E : List (List Nat)) (construct_TTi : Bool) (TT TTi : Lists) (hE : E.rows = 3 * m) :
    triangle_triangle_adjacency_E E EMAP uE2E construct_TTi TT TTi =
      Outcome.returned
        (pushBuckets m EMAP uE2E (fun ne => ((ne % m : Nat) : Int))
          (resize TT m (List.replicate 3 [])))
        (if construct_TTi then
          pushBuckets m EMAP uE2E (fun ne => ((ne / m : Nat) : Int))
            (resize TTi m (List.replicate 3 []))
        else TTi) := by
  have hm : E.rows / 3 = m := by omega
  rw [triangle_triangle_adjacency_E_eq, hm, if_neg (by omega)]

/-! ## Properties of the list-valued path -/

/-- C6: given a unique-edge index that honours the contract and empty output containers,
for every face `f < m` and corner `c < 3` the elements of `TT[f][c]` together with `f`
itself are exactly the faces `g` that have a row `g + m*d`, `d < 3`, in the unique edge of
row `f + m*c`: no incident face is missing and no other value appears. -/
theorem list_coverage (m : Nat) (E : Mat) (EMAP : List Nat) (uE2E : List (List Nat))
    (construct_TTi : Bool) (f c : Nat) (hon : Honours m E EMAP uE2E)
    (hf : f < m) (hc : c < 3) :
    ∃ TT TTi, triangle_triangle_adjacency_E E EMAP uE2E construct_TTi [] [] =
        Outcome.returned TT TTi ∧
      ∀ x : Int, (x ∈ slot TT f c ∨ x = (f : Int)) ↔
        ∃ g : Nat, x = (g : Int) ∧ g < m ∧
          ∃ d, d < 3 ∧ EMAP.getD (g + m * d) 0 = EMAP.getD (f + m * c) 0 := by
  obtain ⟨hE, _, hrow, hbucket⟩ := hon
  refine ⟨_, _, triangle_triangle_adjacency_E_returned m E EMAP uE2E construct_TTi [] [] hE, ?_⟩
  intro x
  rw [slot_pushBuckets_nil m EMAP uE2E _ f c hf hc, List.mem_map]
  have he := hrow (f + m * c) (row_lt m f c hf hc)
  constructor
  · rintro (⟨ne, hne, rfl⟩ | rfl)
    · have h := (hbucket _ he.1).2 ne hne
      have hlt : ne / m < 3 := Nat.div_lt_of_lt_mul (by omega)
      exact ⟨ne % m, rfl, Nat.mod_lt _ (by omega), ne / m, hlt, by rw [Nat.mod_add_div]; exact h.2⟩
    · exact ⟨f, rfl, hf, c, hc, rfl⟩
  · rintro ⟨g, rfl, hg, d, hd, hgd⟩
    left
    have hm := (hrow (g + m * d) (row_lt m g d hg hd)).2
    rw [hgd] at hm
    exact ⟨g + m * d, hm, by rw [row_mod m g d hg]⟩

/-- Witness of C6, scenario C: the index of the three triangles sharing the edge (0,1)
honours the contract; face 0, corner 0. -/
theorem list_coverage_witness :
    Honours 3 indexC.E indexC.EMAP indexC.uE2E ∧
      ∃ TT TTi, triangle_triangle_adjacency_E indexC.E indexC.EMAP indexC.uE2E true [] [] =
          Outcome.returned TT TTi ∧
        ∀ x : Int, (x ∈ slot TT 0 0 ∨ x = ((0 : Nat) : Int)) ↔
          ∃ g : Nat, x = (g : Int) ∧ g < 3 ∧
            ∃ d, d < 3 ∧ indexC.EMAP.getD (g + 3 * d) 0 = indexC.EMAP.getD (0 + 3 * 0) 0 :=
  ⟨by decide, list_coverage 3 indexC.E indexC.EMAP indexC.uE2E true 0 0 (by decide)
    (by decide) (by decide)⟩

/-- C4 on the code, scenario C: the index honours the contract and the unique edge of
face 0 at corner 0 has multiplicity `k = 3`, but the list `TT[0][0]` is `[0, 1, 2]`, of
length `3 = k`, not `k - 1 = 2`: the row of the face itself is pushed too. -/
theorem list_length_is_multiplicity_on_three_triangles :
    IndexOf meshC indexC.E indexC.EMAP indexC.uE2E ∧
      multiplicity meshC 0 0 = 3 ∧
      (bucket 3 indexC.EMAP indexC.uE2E 0 0).length = 3 ∧
      (triangle_triangle_adjacency_E indexC.E indexC.EMAP indexC.uE2E true [] []).result.map
        (fun r => slot r.1 0 0) = some [0, 1, 2] ∧
      (triangle_triangle_adjacency_E indexC.E indexC.EMAP indexC.uE2E true [] []).result.map
        (fun r => (slot r.1 0 0).length) = some 3 := by
  decide

/-- C5 on the code, scenario A: the index of a single triangle honours the contract and no
face uses an edge at two corners, but every list `TT[0][c]` is `[0]`: it holds face 0. -/
theorem list_contains_own_face_on_single_triangle :
    IndexOf meshA indexA.E indexA.EMAP indexA.uE2E ∧
      (∀ c, c < 3 → multiplicity meshA 0 c = 1) ∧
      triangle_triangle_adjacency_E indexA.E indexA.EMAP indexA.uE2E true [] [] =
        Outcome.returned [[[0], [0], [0]]] [[[0], [1], [2]]] ∧
      (triangle_triangle_adjacency_E indexA.E indexA.EMAP indexA.uE2E true [] []).result.map
        (fun r => decide ((0 : Int) ∈ slot r.1 0 0)) = some true := by
  decide

/-- C7 on the code, scenario B: `indexB` is a unique-edge index of the two triangles, the
edge of face 0 at corner 1 has multiplicity 2 and the dense path gives `TT(0,1) = 1`, but
the list-valued path gives `TT[0][1] = [0, 1]`: two elements, the first one face 0 itself.
The entry point that takes the face matrix gives the same list. -/
theorem list_and_dense_differ_on_two_triangles :
    IndexOf meshB indexB.E indexB.EMAP indexB.uE2E ∧
      multiplicity meshB 0 1 = 2 ∧
      (bucket 2 indexB.EMAP indexB.uE2E 0 1).length = 2 ∧
      (triangle_triangle_adjacency_TT meshB).coeff 0 1 = 1 ∧
      (triangle_triangle_adjacency_E indexB.E indexB.EMAP indexB.uE2E true [] []).result.map
        (fun r => slot r.1 0 1) = some [0, 1] ∧
      (triangle_triangle_adjacency_E indexB.E indexB.EMAP indexB.uE2E false [] []).result.map
        (fun r => slot r.1 0 1) = some [0, 1] ∧
      (unique_edge_map meshB).EMAP = indexB.EMAP ∧
      (unique_edge_map meshB).uE2E = indexB.uE2E ∧
      (triangle_triangle_adjacency_F meshB true [] []).result.map (fun r => slot r.1 0 1) =
        some [0, 1] := by
  decide

/-- C10: the list-valued entry point that takes a face matrix aborts when the matrix does
not have exactly three columns, and the containers `TT` and `TTi` are then exactly as they
were before the call. -/
theorem list_from_faces_aborts_unchanged (F : Mat) (construct_TTi : Bool) (TT TTi : Lists)
    (h : F.cols ≠ 3) :
    triangle_triangle_adjacency_F F construct_TTi TT TTi = Outcome.aborted TT TTi := by
  unfold triangle_triangle_adjacency_F
  rw [if_pos h]

/-- Witness of C10: a quadrilateral, with containers that already hold lists. -/
theorem list_from_faces_aborts_witness :
    meshQuad.cols ≠ 3 ∧
      triangle_triangle_adjacency_F meshQuad true [[[7], [], []]] [[[1], [], []]] =
        Outcome.aborted [[[7], [], []]] [[[1], [], []]] :=
  ⟨by decide, list_from_faces_aborts_unchanged meshQuad true [[[7], [], []]] [[[1], [], []]]
    (by decide)⟩

/-! ## The rows of the dense path: enumeration and order -/

theorem halfEdge_eq_min_max (F : Mat) (f i : Nat) :
    halfEdge F f i =
      ⟨min (F.coeff f i) (F.coeff f ((i + 1) % F.cols)),
        max (F.coeff f i) (F.coeff f ((i + 1) % F.cols)), f, i⟩ := by
  unfold halfEdge
  split
  · rename_i h
    rw [min_eq_right (le_of_lt h), max_eq_left (le_of_lt h)]
  · rename_i h
    rw [min_eq_left (not_lt.1 h), max_eq_right (not_lt.1 h)]

theorem preprocess_nodup (F : Mat) : (triangle_triangle_adjacency_preprocess F []).Nodup :=
  List.Nodup.of_map Row.pos (preprocess_pos_nodup F)

theorem preprocess_length (F : Mat) :
    (triangle_triangle_adjacency_preprocess F []).length = F.rows * F.cols := by
  rw [(preprocess_perm F).length_eq, ← List.length_map (halfEdges F) Row.pos,
    halfEdges_corners]
  unfold corners
  exact (List.length_product _ _).trans (by rw [List.length_range, List.length_range])

theorem Row.lt_of_le_of_ne {a b : Row} (h : Row.le a b) (hne : a ≠ b) : Row.lt a b := by
  cases a; cases b
  unfold Row.le Row.lt at *
  simp only [ne_eq, Row.mk.injEq] at *
  omega

theorem preprocess_pairwise_lt (F : Mat) :
    (triangle_triangle_adjacency_preprocess F []).Pairwise Row.lt :=
  List.Pairwise.imp₂ (fun _ _ h hne => Row.lt_of_le_of_ne h hne) (preprocess_sorted F)
    (preprocess_nodup F)

/-- C12: called with an empty `TTT` on an `m` by `w` face matrix, the function
`triangle_triangle_adjacency_preprocess` yields exactly `m*w` rows, exactly one for each
pair `(f, i)` with `f < m`, `i < w`, and that row is `(min a b, max a b, f, i)` with
`a = F(f,i)`, `b = F(f,(i+1) mod w)`; every row has its first entry at most its second. -/
theorem preprocess_enumerates (F : Mat) :
    (triangle_triangle_adjacency_preprocess F []).length = F.rows * F.cols ∧
    (∀ r, r ∈ triangle_triangle_adjacency_preprocess F [] ↔
      ∃ f, f < F.rows ∧ ∃ i, i < F.cols ∧
        r = ⟨min (F.coeff f i) (F.coeff f ((i + 1) % F.cols)),
          max (F.coeff f i) (F.coeff f ((i + 1) % F.cols)), f, i⟩) ∧
    (∀ f, f < F.rows → ∀ i, i < F.cols →
      (triangle_triangle_adjacency_preprocess F []).count
        ⟨min (F.coeff f i) (F.coeff f ((i + 1) % F.cols)),
          max (F.coeff f i) (F.coeff f ((i + 1) % F.cols)), f, i⟩ = 1 ∧
      ∀ r ∈ triangle_triangle_adjacency_preprocess F [], r.f = f → r.ei = i →
        r = ⟨min (F.coeff f i) (F.coeff f ((i + 1) % F.cols)),
          max (F.coeff f i) (F.coeff f ((i + 1) % F.cols)), f, i⟩) ∧
    (∀ r ∈ triangle_triangle_adjacency_preprocess F [], r.v1 ≤ r.v2) := by
  have hmem : ∀ r, r ∈ triangle_triangle_adjacency_preprocess F [] ↔
      ∃ f, f < F.rows ∧ ∃ i, i < F.cols ∧
        r = ⟨min (F.coeff f i) (F.coeff f ((i + 1) % F.cols)),
          max (F.coeff f i) (F.coeff f ((i + 1) % F.cols)), f, i⟩ := by
    intro r
    rw [mem_preprocess]
    simp only [halfEdge_eq_min_max]
  refine ⟨preprocess_length F, hmem, ?_, ?_⟩
  · intro f hf i hi
    have h1 : ⟨min (F.coeff f i) (F.coeff f ((i + 1) % F.cols)),
          max (F.coeff f i) (F.coeff f ((i + 1) % F.cols)), f, i⟩ ∈
        triangle_triangle_adjacency_preprocess F [] := (hmem _).2 ⟨f, hf, i, hi, rfl⟩
    refine ⟨List.count_eq_one_of_mem (preprocess_nodup F) h1, ?_⟩
    intro r hr hrf hri
    obtain ⟨g, _, d, _, rfl⟩ := (hmem r).1 hr
    simp only at hrf hri
    rw [hrf, hri]
  · intro r hr
    obtain ⟨f, _, i, _, rfl⟩ := (hmem r).1 hr
    exact min_le_max

/-- An instance of C12, scenario B: the six rows of the two triangles, sorted; the edge
(1,2) is carried by face 0 at corner 1 and by face 1 at corner 2. -/
theorem preprocess_enumerates_example :
    triangle_triangle_adjacency_preprocess meshB [] =
      [⟨0, 1, 0, 0⟩, ⟨0, 2, 0, 2⟩, ⟨1, 2, 0, 1⟩, ⟨1, 2, 1, 2⟩, ⟨1, 3, 1, 0⟩, ⟨2, 3, 1, 1⟩] ∧
    (triangle_triangle_adjacency_preprocess meshB []).length = meshB.rows * meshB.cols :=
  ⟨by decide, (preprocess_enumerates meshB).1⟩

/-- C13: the rows returned by `triangle_triangle_adjacency_preprocess` (from an empty
`TTT`) are strictly increasing in the lexicographic order on (smaller endpoint, larger
endpoint, face, corner); so the rows of one unique edge form one contiguous run: for
positions `i < j < k`, if the rows at `i` and `k` have the same key, the row at `j` has
that key too. -/
theorem preprocess_strictly_sorted (F : Mat) :
    (triangle_triangle_adjacency_preprocess F []).Pairwise Row.lt ∧
    ∀ (i j k : Nat) (hij : i < j) (hjk : j < k)
      (hk : k < (triangle_triangle_adjacency_preprocess F []).length),
      sameKey ((triangle_triangle_adjacency_preprocess F [])[i])
          ((triangle_triangle_adjacency_preprocess F [])[k]) →
        sameKey ((triangle_triangle_adjacency_preprocess F [])[i])
            ((triangle_triangle_adjacency_preprocess F [])[j]) ∧
          sameKey ((triangle_triangle_adjacency_preprocess F [])[j])
            ((triangle_triangle_adjacency_preprocess F [])[k]) := by
  refine ⟨preprocess_pairwise_lt F, ?_⟩
  intro i j k hij hjk hk hik
  have hs := List.pairwise_iff_getElem.1 (preprocess_sorted F)
  exact sameKey_of_between (hs i j (by omega) (by omega) hij) (hs j k (by omega) hk hjk) hik

/-- The sorted rows of scenario C, an instance of C13: nine rows in strictly increasing
order, the three rows of the edge (0,1) in front. -/
theorem preprocess_strictly_sorted_example :
    triangle_triangle_adjacency_preprocess meshC [] =
      [⟨0, 1, 0, 0⟩, ⟨0, 1, 1, 0⟩, ⟨0, 1, 2, 0⟩, ⟨0, 2, 0, 2⟩, ⟨0, 3, 1, 2⟩, ⟨0, 4, 2, 2⟩,
        ⟨1, 2, 0, 1⟩, ⟨1, 3, 1, 1⟩, ⟨1, 4, 2, 1⟩] ∧
    (triangle_triangle_adjacency_preprocess meshC []).Pairwise Row.lt :=
  ⟨by decide, (preprocess_strictly_sorted meshC).1⟩

/-! ## The sentinel of the dense path -/

theorem multiplicity_eq_one_iff (F : Mat) (f c : Nat) (hf : f < F.rows) (hc : c < F.cols) :
    multiplicity F f c = 1 ↔
      ∀ g, g < F.rows → ∀ d, d < F.cols → sameEdge F f c g d → g = f ∧ d = c := by
  have hnd : ((corners F).filter fun s => decide (sameEdge F f c s.1 s.2)).Nodup :=
    (corners_nodup F).filter _
  have hself : (f, c) ∈ (corners F).filter fun s => decide (sameEdge F f c s.1 s.2) := by
    rw [List.mem_filter, mem_corners]
    exact ⟨⟨hf, hc⟩, decide_eq_true (sameEdge_refl F f c)⟩
  unfold multiplicity
  constructor
  · intro h g hg d hd hse
    by_contra hne
    have hne' : (f, c) ≠ (g, d) := fun e => hne ⟨(Prod.mk.inj e).1.symm, (Prod.mk.inj e).2.symm⟩
    have hnd2 : [(f, c), (g, d)].Nodup := by
      simp only [List.nodup_cons, List.mem_singleton, List.not_mem_nil, List.nodup_nil,
        and_true, not_false_eq_true]
      exact hne'
    have hsub : [(f, c), (g, d)] ⊆
        (corners F).filter fun s => decide (sameEdge F f c s.1 s.2) := by
      intro s hs
      simp only [List.mem_cons, List.mem_singleton, List.not_mem_nil, or_false] at hs
      rcases hs with rfl | rfl
      · exact hself
      · rw [List.mem_filter, mem_corners]
        exact ⟨⟨hg, hd⟩, decide_eq_true hse⟩
    have hlen := (List.subperm_of_subset hnd2 hsub).length_le
    simp only [List.length_cons, List.length_nil] at hlen
    omega
  · intro h
    have hsub : ((corners F).filter fun s => decide (sameEdge F f c s.1 s.2)) ⊆ [(f, c)] := by
      intro s hs
      rw [List.mem_filter, mem_corners] at hs
      obtain ⟨g, d⟩ := s
      have e := h g hs.1.1 d hs.1.2 (of_decide_eq_true hs.2)
      rw [List.mem_singleton, e.1, e.2]
    have h1 := (List.subperm_of_subset hnd hsub).length_le
    have h2 : 0 < ((corners F).filter fun s => decide (sameEdge F f c s.1 s.2)).length :=
      List.length_pos_of_mem hself
    simp only [List.length_cons, List.length_nil] at h1
    omega

/-- C17: for every face matrix, manifold or not, degenerate faces included, the dense
result has `TT(f,c) = -1` if and only if no other pair `(g, d) ≠ (f, c)` has an edge with
the same unordered pair of endpoints as the edge of `f` at corner `c`, that is if and only
if that edge has multiplicity 1; and `TT(f,c) = -1` if and only if `TTi(f,c) = -1`. -/
theorem dense_sentinel_iff (F : Mat) (f c : Nat) (hf : f < F.rows) (hc : c < F.cols) :
    ((triangle_triangle_adjacency_TT_TTi F).1.coeff f c = -1 ↔
      ∀ g, g < F.rows → ∀ d, d < F.cols → (g, d) ≠ (f, c) → ¬ sameEdge F f c g d) ∧
    ((triangle_triangle_adjacency_TT_TTi F).1.coeff f c = -1 ↔ multiplicity F f c = 1) ∧
    ((triangle_triangle_adjacency_TT_TTi F).1.coeff f c = -1 ↔
      (triangle_triangle_adjacency_TT_TTi F).2.coeff f c = -1) := by
  rcases dense_cases F f c hf hc with ⟨h1, h2, hall⟩ | ⟨g, d, hg, hd, hne, hse, h1, h2⟩
  · refine ⟨⟨fun _ g hg d hd hne hse => ?_, fun _ => h1⟩,
      ⟨fun _ => (multiplicity_eq_one_iff F f c hf hc).2
        (fun g hg d hd hse => hall g d hg hd hse), fun _ => h1⟩,
      ⟨fun _ => h2, fun _ => h1⟩⟩
    obtain ⟨rfl, rfl⟩ := hall g d hg hd hse
    exact hne rfl
  · have n1 : (triangle_triangle_adjacency_TT_TTi F).1.coeff f c ≠ -1 := by
      rw [h1]; omega
    have n2 : (triangle_triangle_adjacency_TT_TTi F).2.coeff f c ≠ -1 := by
      rw [h2]; omega
    refine ⟨⟨fun h => absurd h n1, fun h => absurd hse (h g hg d hd hne)⟩,
      ⟨fun h => absurd h n1, fun h => ?_⟩, ⟨fun h => absurd h n1, fun h => absurd h n2⟩⟩
    have e := (multiplicity_eq_one_iff F f c hf hc).1 h g hg d hd hse
    exact absurd (by rw [e.1, e.2]) hne

/-- Witness of C17: in scenario B the edge of face 0 at corner 0 is a boundary edge and its
slot holds `-1` in both matrices; the face `[0,1,0]`, whose corners 0 and 1 carry one
edge, has multiplicity 2 there and `TT(0,0) = 0`. -/
theorem dense_sentinel_iff_witness :
    (triangle_triangle_adjacency_TT_TTi meshB).1.coeff 0 0 = -1 ∧
    multiplicity meshFold 0 0 = 2 ∧
    (triangle_triangle_adjacency_TT_TTi meshFold).1.coeff 0 0 = 0 ∧
    (((triangle_triangle_adjacency_TT_TTi meshB).1.coeff 0 0 = -1 ↔
      ∀ g, g < meshB.rows → ∀ d, d < meshB.cols → (g, d) ≠ (0, 0) → ¬ sameEdge meshB 0 0 g d) ∧
    ((triangle_triangle_adjacency_TT_TTi meshB).1.coeff 0 0 = -1 ↔ multiplicity meshB 0 0 = 1) ∧
    ((triangle_triangle_adjacency_TT_TTi meshB).1.coeff 0 0 = -1 ↔
      (triangle_triangle_adjacency_TT_TTi meshB).2.coeff 0 0 = -1)) :=
  ⟨by decide, by decide, by decide, dense_sentinel_iff meshB 0 0 (by decide) (by decide)⟩

/-! ## Runs of rows of one edge -/

/-- The entries of the dense result at the slot of any row of the sorted list. -/
theorem dense_at (F : Mat) (pre : List Row) (r : Row) (post : List Row)
    (hL : triangle_triangle_adjacency_preprocess F [] = pre ++ r :: post) :
    (triangle_triangle_adjacency_TT_TTi F).1.coeff r.f r.ei =
        linkOf (fun r => (r.f : Int)) pre.getLast? r post.head? (-1) ∧
      (triangle_triangle_adjacency_TT_TTi F).2.coeff r.f r.ei =
        linkOf (fun r => (r.ei : Int)) pre.getLast? r post.head? (-1) := by
  have nd := preprocess_pos_nodup F
  rw [hL] at nd
  constructor
  · show (triangle_triangle_adjacency_extractTT F
      (triangle_triangle_adjacency_preprocess F [])).coeff r.f r.ei = _
    rw [extractTT_eq_scan, hL]
    exact scan_at (fun r => (r.f : Int)) pre r post (Mat.Constant F.rows F.cols (-1)) nd
  · show (triangle_triangle_adjacency_extractTTi F
      (triangle_triangle_adjacency_preprocess F [])).coeff r.f r.ei = _
    rw [extractTTi_eq_scan, hL]
    exact scan_at (fun r => (r.ei : Int)) pre r post (Mat.Constant F.rows F.cols (-1)) nd

theorem linkOf_next (val : Row → Int) (prev : Option Row) (r q : Row) (old : Int)
    (h : sameKey r q) : linkOf val prev r (some q) old = val q := by
  simp [linkOf, h]

theorem linkOf_prev (val : Row → Int) (p r : Row) (next : Option Row) (old : Int)
    (h : sameKey p r) (hn : ∀ q, next = some q → ¬ sameKey r q) :
    linkOf val (some p) r next old = val p := by
  cases next with
  | none => simp [linkOf, h]
  | some q => simp [linkOf, h, hn q rfl]

/-- C18: in the sorted rows of a face matrix, take a run of rows that share one edge key
and are followed by no row of that key. The slot of every row of the run but the last
holds its successor, in `TT` the face and in `TTi` the corner; the slot of the last row
holds its predecessor; and a row with a predecessor and a successor in the run does not
name its predecessor, so of a run of three or more only the last two rows name each
other. -/
theorem dense_run (F : Mat) (pre run post : List Row)
    (hL : triangle_triangle_adjacency_preprocess F [] = pre ++ run ++ post)
    (hkey : ∀ a ∈ run, ∀ b ∈ run, sameKey a b)
    (hend : ∀ a ∈ run, ∀ q ∈ post, ¬ sameKey a q) :
    (∀ p a b q, run = p ++ a :: b :: q →
      (triangle_triangle_adjacency_TT_TTi F).1.coeff a.f a.ei = (b.f : Int) ∧
        (triangle_triangle_adjacency_TT_TTi F).2.coeff a.f a.ei = (b.ei : Int)) ∧
    (∀ p a b, run = p ++ [a, b] →
      (triangle_triangle_adjacency_TT_TTi F).1.coeff b.f b.ei = (a.f : Int) ∧
        (triangle_triangle_adjacency_TT_TTi F).2.coeff b.f b.ei = (a.ei : Int)) ∧
    (∀ p a b c q, run = p ++ a :: b :: c :: q →
      ¬ ((triangle_triangle_adjacency_TT_TTi F).1.coeff b.f b.ei = (a.f : Int) ∧
        (triangle_triangle_adjacency_TT_TTi F).2.coeff b.f b.ei = (a.ei : Int))) := by
  have succ : ∀ p a b q, run = p ++ a :: b :: q →
      (triangle_triangle_adjacency_TT_TTi F).1.coeff a.f a.ei = (b.f : Int) ∧
        (triangle_triangle_adjacency_TT_TTi F).2.coeff a.f a.ei = (b.ei : Int) := by
    intro p a b q hrun
    have hab : sameKey a b := hkey a (by rw [hrun]; simp) b (by rw [hrun]; simp)
    have hL' : triangle_triangle_adjacency_preprocess F [] =
        (pre ++ p) ++ a :: (b :: (q ++ post)) := by
      rw [hL, hrun]; simp
    have h := dense_at F (pre ++ p) a (b :: (q ++ post)) hL'
    rw [List.head?_cons, linkOf_next _ _ _ _ _ hab, linkOf_next _ _ _ _ _ hab] at h
    exact h
  refine ⟨succ, ?_, ?_⟩
  · intro p a b hrun
    have hab : sameKey a b := hkey a (by rw [hrun]; simp) b (by rw [hrun]; simp)
    have hb : b ∈ run := by rw [hrun]; simp
    have hL' : triangle_triangle_adjacency_preprocess F [] =
        (pre ++ p ++ [a]) ++ b :: post := by
      rw [hL, hrun]; simp
    have h := dense_at F (pre ++ p ++ [a]) b post hL'
    have hn : ∀ q, post.head? = some q → ¬ sameKey b q := fun q hq =>
      hend b hb q (List.mem_of_mem_head? hq)
    rw [List.getLast?_concat, linkOf_prev _ _ _ _ _ hab hn, linkOf_prev _ _ _ _ _ hab hn] at h
    exact h
  · intro p a b c q hrun
    have h := succ (p ++ [a]) b c q (by rw [hrun]; simp)
    rw [h.1, h.2]
    rintro ⟨e1, e2⟩
    have nd := preprocess_pos_nodup F
    rw [hL, hrun] at nd
    have nd2 : ([a, b, c].map Row.pos).Nodup := by
      refine List.Nodup.sublist ?_ nd
      apply List.Sublist.map
      have : [a, b, c].Sublist (a :: b :: c :: q) :=
        (List.Sublist.refl [a, b, c]).trans (by
          simp)
      exact ((this.trans (List.sublist_append_right p _)).trans
        (List.sublist_append_right pre _)).trans (List.sublist_append_left _ post)
    simp only [List.map_cons, List.map_nil, List.nodup_cons, List.mem_cons, List.mem_singleton,
      List.not_mem_nil, not_or, Row.pos, Prod.mk.injEq] at nd2
    omega

/-- Witness of C18, scenario C: the run of the edge (0,1) is the rows of the faces 0, 1, 2
at corner 0, which start the sorted list; `TT(0,0) = 1`, `TT(1,0) = 2`, `TT(2,0) = 1`. -/
theorem dense_run_witness :
    ((triangle_triangle_adjacency_TT_TTi meshC).1.coeff 0 0 = 1 ∧
      (triangle_triangle_adjacency_TT_TTi meshC).1.coeff 1 0 = 2 ∧
      (triangle_triangle_adjacency_TT_TTi meshC).1.coeff 2 0 = 1) ∧
    ((∀ p a b q, [(⟨0, 1, 0, 0⟩ : Row), ⟨0, 1, 1, 0⟩, ⟨0, 1, 2, 0⟩] = p ++ a :: b :: q →
      (triangle_triangle_adjacency_TT_TTi meshC).1.coeff a.f a.ei = (b.f : Int) ∧
        (triangle_triangle_adjacency_TT_TTi meshC).2.coeff a.f a.ei = (b.ei : Int)) ∧
    (∀ p a b, [(⟨0, 1, 0, 0⟩ : Row), ⟨0, 1, 1, 0⟩, ⟨0, 1, 2, 0⟩] = p ++ [a, b] →
      (triangle_triangle_adjacency_TT_TTi meshC).1.coeff b.f b.ei = (a.f : Int) ∧
        (triangle_triangle_adjacency_TT_TTi meshC).2.coeff b.f b.ei = (a.ei : Int)) ∧
    (∀ p a b c q, [(⟨0, 1, 0, 0⟩ : Row), ⟨0, 1, 1, 0⟩, ⟨0, 1, 2, 0⟩] = p ++ a :: b :: c :: q →
      ¬ ((triangle_triangle_adjacency_TT_TTi meshC).1.coeff b.f b.ei = (a.f : Int) ∧
        (triangle_triangle_adjacency_TT_TTi meshC).2.coeff b.f b.ei = (a.ei : Int)))) :=
  ⟨by decide,
    dense_run meshC [] [⟨0, 1, 0, 0⟩, ⟨0, 1, 1, 0⟩, ⟨0, 1, 2, 0⟩]
      [⟨0, 2, 0, 2⟩, ⟨0, 3, 1, 2⟩, ⟨0, 4, 2, 2⟩, ⟨1, 2, 0, 1⟩, ⟨1, 3, 1, 1⟩, ⟨1, 4, 2, 1⟩]
      (by decide) (by decide) (by decide)⟩

/-! ## The list-valued path: containers, corner output and row arithmetic -/

/-- C11 on the code, scenario A with `construct_TTi = true`: from empty containers the call
gives `TT = [[[0],[0],[0]]]`; from containers that hold `TT[0][0] = [9]` and
`TTi[0][0] = [8]` it gives `TT[0][0] = [9,0]` and `TTi[0][0] = [8,0]`, the old entries
kept in front; and a second call on the containers of the first doubles every list. -/
theorem list_keeps_old_entries_on_single_triangle :
    triangle_triangle_adjacency_E indexA.E indexA.EMAP indexA.uE2E true [] [] =
      Outcome.returned [[[0], [0], [0]]] [[[0], [1], [2]]] ∧
    triangle_triangle_adjacency_E indexA.E indexA.EMAP indexA.uE2E true
        [[[9], [], []]] [[[8], [], []]] =
      Outcome.returned [[[9, 0], [0], [0]]] [[[8, 0], [1], [2]]] ∧
    triangle_triangle_adjacency_E indexA.E indexA.EMAP indexA.uE2E true
        [[[0], [0], [0]]] [[[0], [1], [2]]] =
      Outcome.returned [[[0, 0], [0, 0], [0, 0]]] [[[0, 0], [1, 1], [2, 2]]] ∧
    (triangle_triangle_adjacency_E indexA.E indexA.EMAP indexA.uE2E true [] []).result.bind
        (fun r => (triangle_triangle_adjacency_E indexA.E indexA.EMAP indexA.uE2E true
          r.1 r.2).result) ≠
      (triangle_triangle_adjacency_E indexA.E indexA.EMAP indexA.uE2E true [] []).result := by
  decide

/-- The flag `construct_TTi` decides only whether `TTi` is written. -/
theorem triangle_triangle_adjacency_E_flag (E : Mat) (EMAP : List Nat) (uE2E : List (List Nat))
    (TT TTi TTi' : Lists) :
    (triangle_triangle_adjacency_E E EMAP uE2E false TT TTi).TTi = TTi ∧
    (triangle_triangle_adjacency_E E EMAP uE2E false TT TTi).TT =
      (triangle_triangle_adjacency_E E EMAP uE2E true TT TTi').TT ∧
    (triangle_triangle_adjacency_E E EMAP uE2E false TT TTi).result.isSome =
      (triangle_triangle_adjacency_E E EMAP uE2E true TT TTi').result.isSome := by
  rw [triangle_triangle_adjacency_E_eq, triangle_triangle_adjacency_E_eq]
  by_cases h : E.rows ≠ E.rows / 3 * 3
  · rw [if_pos h, if_pos h]
    exact ⟨rfl, rfl, rfl⟩
  · rw [if_neg h, if_neg h]
    exact ⟨rfl, rfl, rfl⟩

/-- C14: called with `construct_TTi = false`, the list-valued builder leaves `TTi` exactly
as it was before the call, and its `TT` is the `TT` of the call with
`construct_TTi = true` on the same inputs; it returns exactly when that call returns. The
overload that takes only `F` and `TT` gives the `TT` of the overload that fills both. -/
theorem list_corner_output_optional (E : Mat) (EMAP : List Nat) (uE2E : List (List Nat))
    (TT TTi : Lists) :
    (triangle_triangle_adjacency_E E EMAP uE2E false TT TTi).TTi = TTi ∧
    (triangle_triangle_adjacency_E E EMAP uE2E false TT TTi).TT =
      (triangle_triangle_adjacency_E E EMAP uE2E true TT TTi).TT ∧
    (triangle_triangle_adjacency_E E EMAP uE2E false TT TTi).result.isSome =
      (triangle_triangle_adjacency_E E EMAP uE2E true TT TTi).result.isSome ∧
    ∀ F : Mat, (triangle_triangle_adjacency_F_TT F TT).TT =
      (triangle_triangle_adjacency_F_TT_TTi F TT TTi).TT := by
  have h := triangle_triangle_adjacency_E_flag E EMAP uE2E TT TTi TTi
  refine ⟨h.1, h.2.1, h.2.2, ?_⟩
  intro F
  unfold triangle_triangle_adjacency_F_TT triangle_triangle_adjacency_F_TT_TTi
    triangle_triangle_adjacency_F
  by_cases hc : F.cols ≠ 3
  · simp only [if_pos hc]
    rfl
  · simp only [if_neg hc]
    exact (triangle_triangle_adjacency_E_flag _ _ _ TT [] TTi).2.1

/-- An instance of C14, scenario C: with `construct_TTi = false` the container `TTi`, which
held `[[[5]]]`, is returned as it was, and `TT` is the one of the call that fills both. -/
theorem list_corner_output_optional_example :
    triangle_triangle_adjacency_E indexC.E indexC.EMAP indexC.uE2E false [] [[[5]]] =
      Outcome.returned [[[0, 1, 2], [0], [0]], [[0, 1, 2], [1], [1]], [[0, 1, 2], [2], [2]]]
        [[[5]]] ∧
    (triangle_triangle_adjacency_E indexC.E indexC.EMAP indexC.uE2E false [] [[[5]]]).TTi =
      [[[5]]] :=
  ⟨by decide, (list_corner_output_optional indexC.E indexC.EMAP indexC.uE2E [] [[[5]]]).1⟩

/-- From empty containers with `construct_TTi = true`, both lists of a slot are its bucket,
converted. -/
theorem list_reference_aux (m : Nat) (E : Mat) (EMAP : List Nat) (uE2E : List (List Nat))
    (f c : Nat) (hE : E.rows = 3 * m) (hf : f < m) (hc : c < 3) :
    ∃ TT TTi, triangle_triangle_adjacency_E E EMAP uE2E true [] [] =
        Outcome.returned TT TTi ∧
      slot TT f c =
        (uE2E.getD (EMAP.getD (f + m * c) 0) []).map (fun ne => ((ne % m : Nat) : Int)) ∧
      slot TTi f c =
        (uE2E.getD (EMAP.getD (f + m * c) 0) []).map (fun ne => ((ne / m : Nat) : Int)) := by
  refine ⟨_, _, triangle_triangle_adjacency_E_returned m E EMAP uE2E true [] [] hE, ?_, ?_⟩
  · exact slot_pushBuckets_nil m EMAP uE2E _ f c hf hc
  · simp only [if_true]
    exact slot_pushBuckets_nil m EMAP uE2E _ f c hf hc

/-- C15: starting from empty containers with `construct_TTi = true` and `E` of `3m` rows,
for every face `f < m` and corner `c < 3`, the list `TT[f][c]` is the bucket
`uE2E[EMAP(f + m*c)]` mapped by `ne ↦ ne mod m` and `TTi[f][c]` is the same bucket mapped
by `ne ↦ ne div m`: in the order of the bucket, one entry for every row of the bucket, the
row `f + m*c` itself included when the bucket contains it. -/
theorem list_reference (m : Nat) (E : Mat) (EMAP : List Nat) (uE2E : List (List Nat))
    (f c : Nat) (hE : E.rows = 3 * m) (hf : f < m) (hc : c < 3) :
    ∃ TT TTi, triangle_triangle_adjacency_E E EMAP uE2E true [] [] =
        Outcome.returned TT TTi ∧
      slot TT f c =
        (uE2E.getD (EMAP.getD (f + m * c) 0) []).map (fun ne => ((ne % m : Nat) : Int)) ∧
      slot TTi f c =
        (uE2E.getD (EMAP.getD (f + m * c) 0) []).map (fun ne => ((ne / m : Nat) : Int)) :=
  list_reference_aux m E EMAP uE2E f c hE hf hc

/-- Witness of C15, scenario C: face 0, corner 0, whose bucket is the rows `[0, 1, 2]`;
the lists are `TT[0][0] = [0, 1, 2]`, face 0 itself first, and `TTi[0][0] = [0, 0, 0]`. -/
theorem list_reference_witness :
    (indexC.uE2E.getD (indexC.EMAP.getD (0 + 3 * 0) 0) []).map
        (fun ne => ((ne % 3 : Nat) : Int)) = [0, 1, 2] ∧
    (indexC.uE2E.getD (indexC.EMAP.getD (0 + 3 * 0) 0) []).map
        (fun ne => ((ne / 3 : Nat) : Int)) = [0, 0, 0] ∧
    ∃ TT TTi, triangle_triangle_adjacency_E indexC.E indexC.EMAP indexC.uE2E true [] [] =
        Outcome.returned TT TTi ∧
      slot TT 0 0 =
        (indexC.uE2E.getD (indexC.EMAP.getD (0 + 3 * 0) 0) []).map
          (fun ne => ((ne % 3 : Nat) : Int)) ∧
      slot TTi 0 0 =
        (indexC.uE2E.getD (indexC.EMAP.getD (0 + 3 * 0) 0) []).map
          (fun ne => ((ne / 3 : Nat) : Int)) :=
  ⟨by decide, by decide,
    list_reference 3 indexC.E indexC.EMAP indexC.uE2E 0 0 (by decide) (by decide) (by decide)⟩

/-- C16: for every face `f < m` and corner `c < 3`, the row `e = f + m*c` decodes back to
`(e mod m, e div m) = (f, c)`; and when the rows of the bucket of `(f, c)` lie below `3m`,
from empty containers the lists `TT[f][c]` and `TTi[f][c]` have the length of the bucket,
and at every position `k` they hold a face `nf < m` and a corner `nc < 3` with
`nf + m*nc` the row at position `k` of the bucket. -/
theorem list_row_round_trip (m : Nat) (E : Mat) (EMAP : List Nat) (uE2E : List (List Nat))
    (f c : Nat) (hE : E.rows = 3 * m) (hf : f < m) (hc : c < 3)
    (hrows : ∀ ne ∈ uE2E.getD (EMAP.getD (f + m * c) 0) [], ne < 3 * m) :
    ((f + m * c) % m = f ∧ (f + m * c) / m = c) ∧
    ∃ TT TTi, triangle_triangle_adjacency_E E EMAP uE2E true [] [] =
        Outcome.returned TT TTi ∧
      (slot TT f c).length = (uE2E.getD (EMAP.getD (f + m * c) 0) []).length ∧
      (slot TTi f c).length = (slot TT f c).length ∧
      ∀ k, k < (uE2E.getD (EMAP.getD (f + m * c) 0) []).length →
        ∃ nf nc : Nat, (slot TT f c)[k]? = some (nf : Int) ∧
          (slot TTi f c)[k]? = some (nc : Int) ∧ nf < m ∧ nc < 3 ∧
          (uE2E.getD (EMAP.getD (f + m * c) 0) [])[k]? = some (nf + m * nc) := by
  refine ⟨⟨row_mod m f c hf, row_div m f c hf⟩, ?_⟩
  obtain ⟨TT, TTi, hcall, hTT, hTTi⟩ := list_reference_aux m E EMAP uE2E f c hE hf hc
  refine ⟨TT, TTi, hcall, ?_, ?_, ?_⟩
  · rw [hTT, List.length_map]
  · rw [hTT, hTTi, List.length_map, List.length_map]
  · intro k hk
    have hmem : (uE2E.getD (EMAP.getD (f + m * c) 0) [])[k] ∈
        uE2E.getD (EMAP.getD (f + m * c) 0) [] := List.getElem_mem _
    have hlt := hrows _ hmem
    refine ⟨(uE2E.getD (EMAP.getD (f + m * c) 0) [])[k] % m,
      (uE2E.getD (EMAP.getD (f + m * c) 0) [])[k] / m, ?_, ?_, Nat.mod_lt _ (by omega),
      Nat.div_lt_of_lt_mul (by omega), ?_⟩
    · rw [hTT, List.getElem?_map, List.getElem?_eq_getElem hk]; rfl
    · rw [hTTi, List.getElem?_map, List.getElem?_eq_getElem hk]; rfl
    · rw [List.getElem?_eq_getElem hk, Nat.mod_add_div]

/-- Witness of C16, scenario C: face 1, corner 0, whose bucket is the rows `[0, 1, 2]`. -/
theorem list_row_round_trip_witness :
    ((1 + 3 * 0) % 3 = 1 ∧ (1 + 3 * 0) / 3 = 0) ∧
    ∃ TT TTi, triangle_triangle_adjacency_E indexC.E indexC.EMAP indexC.uE2E true [] [] =
        Outcome.returned TT TTi ∧
      (slot TT 1 0).length = (indexC.uE2E.getD (indexC.EMAP.getD (1 + 3 * 0) 0) []).length ∧
      (slot TTi 1 0).length = (slot TT 1 0).length ∧
      ∀ k, k < (indexC.uE2E.getD (indexC.EMAP.getD (1 + 3 * 0) 0) []).length →
        ∃ nf nc : Nat, (slot TT 1 0)[k]? = some (nf : Int) ∧
          (slot TTi 1 0)[k]? = some (nc : Int) ∧ nf < 3 ∧ nc < 3 ∧
          (indexC.uE2E.getD (indexC.EMAP.getD (1 + 3 * 0) 0) [])[k]? = some (nf + 3 * nc) :=
  list_row_round_trip 3 indexC.E indexC.EMAP indexC.uE2E 1 0 (by decide) (by decide)
    (by decide) (by decide)

end igl
